import Mathlib

/-!
Verification development for the CBETA bilingual PDF typesetting core.

This file is a shallow embedding, in Lean 4, of the paragraph composer of
src/cbeta-gui-dll/cbeta-pdf-creator/src/typography.rs and of the page
compositor and content-stream emitter of
src/cbeta-gui-dll/cbeta-pdf-creator/src/bilingual_generator.rs.

Modelling conventions:
- Rust f32 values are modelled as rationals.  All arithmetic the embedded
  code performs (sums, products, divisions, comparisons, clamps) is exact on
  the values the theorems use, so the rational model tracks the source
  except for rounding, NaN and infinity, which no theorem here relies on.
- Rust String values are modelled as List Char (a string is its sequence of
  Unicode scalar values, exactly what str chars iterates over).
- The external font-metrics service (fontdue) is modelled as function fields
  of FontContext: an advance-width function, a kerning function and the
  units-per-em value for each of the two faces.  The source caches metrics
  per char in a HashMap; a cache entry never changes once inserted, so per
  program run the metric of a char is one fixed value and a pure function is
  a faithful model.  All theorems quantify over arbitrary metric functions.
- Vec index updates become List.set; out-of-range branches (which the
  source never reaches because every call site passes in-range indices) are
  modelled as returning the input unchanged.
-/

attribute [local semireducible] Rat.add Rat.sub Rat.mul Rat.inv

/-- Text tokens for paragraph composition (enum TextToken in typography.rs).
DiscretionaryHyphen is the U+00AD soft hyphen point. -/
inductive TextToken where
  | Word : List Char → TextToken
  | Space : TextToken
  | Punctuation : Char → TextToken
  | DiscretionaryHyphen : TextToken
deriving DecidableEq

/-- Space adjustment data for justification (struct SpaceAdjustment). -/
structure SpaceAdjustment where
  position : Nat
  baseWidth : ℚ
  adjustedWidth : ℚ
  adjustmentRatio : ℚ
deriving DecidableEq

/-- A formatted line of text (struct FormattedLine). -/
structure FormattedLine where
  text : List Char
  x : ℚ
  y : ℚ
  width : ℚ
  height : ℚ
  isChinese : Bool
  fontSize : ℚ
  baseline : ℚ
  tokens : List TextToken
  spaceAdjustments : List SpaceAdjustment
  isJustified : Bool
  hyphenated : Bool
deriving DecidableEq

/-- A formatted paragraph (struct FormattedParagraph). -/
structure FormattedParagraph where
  lines : List FormattedLine
  x : ℚ
  y : ℚ
  width : ℚ
  height : ℚ
  isChinese : Bool
  fontSize : ℚ
  lineSpacing : ℚ
  leading : ℚ
deriving DecidableEq

/-- Text justification options (enum Justification in fonts.rs). -/
inductive Justification where
  | Left : Justification
  | Justify : Justification
deriving DecidableEq

/-- Font context: layout settings plus the font-metrics capability
(struct FontContext in fonts.rs).  The advance functions give
metrics(ch, font_size).advance_width at the configured per-script size;
the kern functions give font.horizontal_kern at that size. -/
structure FontContext where
  chineseAdvance : Char → ℚ
  englishAdvance : Char → ℚ
  chineseKern : Char → Char → Option ℚ
  englishKern : Char → Char → Option ℚ
  chineseUpem : ℚ
  englishUpem : ℚ
  pageWidth : ℚ
  pageHeight : ℚ
  margin : ℚ
  fontSizeChinese : ℚ
  fontSizeEnglish : ℚ
  lineSpacing : ℚ
  trackingChinese : ℚ
  trackingEnglish : ℚ
  justification : Justification
  paragraphSpacing : ℚ

/-- The Unicode White_Space code points, the set char::is_whitespace tests. -/
def rustWhitespaceCodes : List Nat :=
  [0x09, 0x0A, 0x0B, 0x0C, 0x0D, 0x20, 0x85, 0xA0, 0x1680,
   0x2000, 0x2001, 0x2002, 0x2003, 0x2004, 0x2005, 0x2006, 0x2007,
   0x2008, 0x2009, 0x200A, 0x2028, 0x2029, 0x202F, 0x205F, 0x3000]

/-- Model of char::is_whitespace (Unicode White_Space property). -/
def rustIsWhitespace (c : Char) : Bool :=
  rustWhitespaceCodes.contains c.toNat

/-- Model of char::is_ascii_punctuation: the four ASCII punctuation ranges. -/
def rustIsAsciiPunctuation (c : Char) : Bool :=
  decide ((0x21 ≤ c.toNat ∧ c.toNat ≤ 0x2F) ∨ (0x3A ≤ c.toNat ∧ c.toNat ≤ 0x40) ∨
    (0x5B ≤ c.toNat ∧ c.toNat ≤ 0x60) ∨ (0x7B ≤ c.toNat ∧ c.toNat ≤ 0x7E))

/-- Model of char::is_uppercase, used only by find_hyphenation_points.
Exact on ASCII; the Unicode letters outside ASCII with the Uppercase
property are not enumerated here (no claim depends on them: the greedy-fill
theorem holds for every breakpoint list). -/
def rustIsUppercase (c : Char) : Bool := c.isUpper

/-- The U+00AD soft hyphen code point. -/
def softHyphenChar : Char := Char.ofNat 0xAD

/-- Fixed CJK punctuation set (fn is_natural_break_point). -/
def isNaturalBreakPoint (c : Char) : Bool :=
  c = '，' ∨ c = '。' ∨ c = '；' ∨ c = '：' ∨ c = '？' ∨ c = '！' ∨
    c = '「' ∨ c = '」' ∨ c = '『' ∨ c = '』' ∨ c = '（' ∨ c = '）'

/-- Helper to identify Chinese punctuation (fn is_chinese_punctuation). -/
def isChinesePunctuation (c : Char) : Bool := isNaturalBreakPoint c

/-- Per-boundary walk of fn calculate_text_width: advance width of each
char, plus kerning times scale and tracking at every interior boundary. -/
def ctwGo (adv : Char → ℚ) (kern : Char → Char → Option ℚ)
    (scale trackAdd : ℚ) : List Char → ℚ
  | [] => 0
  | [c] => adv c
  | c :: c2 :: rest =>
      adv c + (match kern c c2 with | some k => k * scale | none => 0) +
        trackAdd + ctwGo adv kern scale trackAdd (c2 :: rest)

/-- Model of FontContext::calculate_text_width: width with kerning and
tracking; 0 for empty text. -/
def calculateTextWidth (fc : FontContext) (text : List Char) (isCh : Bool) : ℚ :=
  if text = [] then 0
  else
    let adv := if isCh then fc.chineseAdvance else fc.englishAdvance
    let kern := if isCh then fc.chineseKern else fc.englishKern
    let size := if isCh then fc.fontSizeChinese else fc.fontSizeEnglish
    let tracking := if isCh then fc.trackingChinese else fc.trackingEnglish
    let upem := if isCh then fc.chineseUpem else fc.englishUpem
    ctwGo adv kern (size / upem) ((tracking / 1000) * size) text

/-- The characters a token is measured and rendered with: Word keeps its
text, Space is one space, Punctuation its char, DiscretionaryHyphen a
hyphen-minus. -/
def tokenRenderChars : TextToken → List Char
  | .Word w => w
  | .Space => [' ']
  | .Punctuation c => [c]
  | .DiscretionaryHyphen => ['-']

/-- Model of fn calculate_line_width: each token measured separately with
calculate_text_width and the results summed (no cross-token kerning). -/
def calculateLineWidth (fc : FontContext) (tokens : List TextToken) (isCh : Bool) : ℚ :=
  (tokens.map (fun t => calculateTextWidth fc (tokenRenderChars t) isCh)).sum

/-- Model of FormattedLine::tokens_to_string. -/
def tokensToString (tokens : List TextToken) : List Char :=
  (tokens.map tokenRenderChars).flatten

/-- True exactly on Space tokens. -/
def isSpaceTok : TextToken → Bool
  | .Space => true
  | _ => false

/-- True exactly on Word tokens. -/
def isWordTok : TextToken → Bool
  | .Word _ => true
  | _ => false

/-- True on a hyphen-minus Punctuation token or a DiscretionaryHyphen. -/
def isHyphenTok : TextToken → Bool
  | .Punctuation c => c = '-'
  | .DiscretionaryHyphen => true
  | _ => false

/-- Model of FormattedLine::word_count on a token list. -/
def wordCountTokens (tokens : List TextToken) : Nat :=
  (tokens.filter isWordTok).length

/-- Model of FormattedLine::ends_with_hyphen: the last non-Space token is a
hyphen Punctuation or a DiscretionaryHyphen. -/
def endsWithHyphenTokens (tokens : List TextToken) : Bool :=
  match tokens.reverse.find? (fun t => !(isSpaceTok t)) with
  | some t => isHyphenTok t
  | none => false

/-- Accumulator walk of fn tokenize_text.  cur is the current_word buffer;
it is flushed as a Word token before any non-word token is emitted, and at
the end of input. -/
def tokenizeAux (isCh : Bool) (cur : List Char) : List Char → List TextToken
  | [] => if cur = [] then [] else [.Word cur]
  | c :: rest =>
    if isCh then
      (if cur = [] then [] else [.Word cur]) ++
        (if isChinesePunctuation c then [.Punctuation c]
         else if rustIsWhitespace c then [.Space]
         else [.Word [c]]) ++ tokenizeAux isCh [] rest
    else
      if rustIsWhitespace c then
        (if cur = [] then [] else [.Word cur]) ++ .Space :: tokenizeAux isCh [] rest
      else if c = softHyphenChar then
        (if cur = [] then [] else [.Word cur]) ++ .DiscretionaryHyphen :: tokenizeAux isCh [] rest
      else if rustIsAsciiPunctuation c ∧ c ≠ '\'' ∧ c ≠ '-' then
        (if cur = [] then [] else [.Word cur]) ++ .Punctuation c :: tokenizeAux isCh [] rest
      else
        tokenizeAux isCh (cur ++ [c]) rest

/-- Model of fn tokenize_text (the Result wrapper in the source never
constructs an error). -/
def tokenizeText (text : List Char) (isCh : Bool) : List TextToken :=
  tokenizeAux isCh [] text

/-- Specification-side per-codepoint token map for Chinese mode, used to
characterize tokenize_text. -/
def chineseCharToken (c : Char) : TextToken :=
  if isChinesePunctuation c then .Punctuation c
  else if rustIsWhitespace c then .Space
  else .Word [c]

/-- A codepoint that joins a Latin-mode Word token: not whitespace, not the
soft hyphen, and not ASCII punctuation other than apostrophe and hyphen. -/
def isLatinWordChar (c : Char) : Bool :=
  !(rustIsWhitespace c) && !(c == softHyphenChar) &&
    !(rustIsAsciiPunctuation c && !(c == '\'') && !(c == '-'))

/-- Dropping a prefix never lengthens a list (termination helper). -/
theorem dropWhileLengthLe {α : Type} (p : α → Bool) :
    ∀ l : List α, (l.dropWhile p).length ≤ l.length := by
  intro l
  induction l with
  | nil => simp [List.dropWhile]
  | cons a t ih =>
    simp only [List.dropWhile]
    cases p a with
    | true => simpa using Nat.le_succ_of_le ih
    | false => simp

/-- Specification-side Latin tokenizer: maximal runs of word chars become
Word tokens, each whitespace codepoint its own Space token, each soft
hyphen a DiscretionaryHyphen, each other ASCII punctuation codepoint a
Punctuation token.  Used to characterize tokenize_text in Latin mode. -/
def latinSpecTokens : List Char → List TextToken
  | [] => []
  | c :: rest =>
    if rustIsWhitespace c then .Space :: latinSpecTokens rest
    else if c = softHyphenChar then .DiscretionaryHyphen :: latinSpecTokens rest
    else if rustIsAsciiPunctuation c ∧ c ≠ '\'' ∧ c ≠ '-' then
      .Punctuation c :: latinSpecTokens rest
    else
      .Word (c :: rest.takeWhile isLatinWordChar) ::
        latinSpecTokens (rest.dropWhile isLatinWordChar)
termination_by cs => cs.length
decreasing_by
  all_goals simp only [List.length_cons]
  all_goals first
    | exact Nat.lt_succ_of_le (dropWhileLengthLe isLatinWordChar rest)
    | exact Nat.lt_succ_self _

theorem tokenizeAux_chinese (cs : List Char) :
    tokenizeAux true [] cs = cs.map chineseCharToken := by
  induction cs with
  | nil => simp [tokenizeAux]
  | cons c rest ih =>
    simp only [tokenizeAux, if_pos rfl, List.map_cons, chineseCharToken, ih,
      List.nil_append]
    by_cases hp : isChinesePunctuation c = true
    · simp [hp]
    · by_cases hw : rustIsWhitespace c = true
      · simp [hp, hw]
      · simp [hp, hw]

theorem isLatinWordChar_iff (c : Char) :
    isLatinWordChar c = true ↔
      ¬(rustIsWhitespace c = true) ∧ ¬(c = softHyphenChar) ∧
        ¬(rustIsAsciiPunctuation c = true ∧ c ≠ '\'' ∧ c ≠ '-') := by
  simp only [isLatinWordChar, Bool.and_eq_true, Bool.not_eq_true',
    beq_eq_false_iff_ne, ne_eq, Bool.not_eq_true]
  constructor
  · rintro ⟨⟨h1, h2⟩, h3⟩
    refine ⟨by simp [h1], h2, ?_⟩
    rintro ⟨p1, p2, p3⟩
    simp [p1, p2, p3] at h3
  · rintro ⟨h1, h2, h3⟩
    refine ⟨⟨by simpa using h1, h2⟩, ?_⟩
    by_cases p1 : rustIsAsciiPunctuation c = true
    · by_cases p2 : c = '\''
      · simp [p2]
      · by_cases p3 : c = '-'
        · simp [p3]
        · exact absurd ⟨p1, p2, p3⟩ h3
    · simp [Bool.not_eq_true] at p1
      simp [p1]

theorem latinSpec_word_flush (rest : List Char) :
    (if rest.takeWhile isLatinWordChar = [] then ([] : List TextToken)
     else [TextToken.Word (rest.takeWhile isLatinWordChar)]) ++
      latinSpecTokens (rest.dropWhile isLatinWordChar) = latinSpecTokens rest := by
  cases rest with
  | nil => simp [latinSpecTokens]
  | cons c t =>
    by_cases hc : isLatinWordChar c
    · obtain ⟨h1, h2, h3⟩ := (isLatinWordChar_iff c).mp hc
      rw [List.takeWhile_cons_of_pos hc, List.dropWhile_cons_of_pos hc]
      have hspec : latinSpecTokens (c :: t) =
          .Word (c :: t.takeWhile isLatinWordChar) ::
            latinSpecTokens (t.dropWhile isLatinWordChar) := by
        simp only [latinSpecTokens]
        rw [if_neg h1, if_neg h2, if_neg h3]
      rw [hspec]
      simp
    · rw [List.takeWhile_cons_of_neg (by simpa using hc),
        List.dropWhile_cons_of_neg (by simpa using hc)]
      simp

theorem tokenizeAux_latin (cs : List Char) : ∀ cur : List Char,
    tokenizeAux false cur cs =
      (if cur ++ cs.takeWhile isLatinWordChar = [] then []
       else [TextToken.Word (cur ++ cs.takeWhile isLatinWordChar)]) ++
        latinSpecTokens (cs.dropWhile isLatinWordChar) := by
  induction cs with
  | nil =>
    intro cur
    by_cases h : cur = [] <;> simp [tokenizeAux, h, latinSpecTokens]
  | cons c rest ih =>
    intro cur
    by_cases hc : isLatinWordChar c
    · obtain ⟨h1, h2, h3⟩ := (isLatinWordChar_iff c).mp hc
      rw [List.takeWhile_cons_of_pos hc, List.dropWhile_cons_of_pos hc]
      have hstep : tokenizeAux false cur (c :: rest) =
          tokenizeAux false (cur ++ [c]) rest := by
        simp only [tokenizeAux, Bool.false_eq_true, if_false]
        rw [if_neg h1, if_neg h2, if_neg h3]
      rw [hstep, ih (cur ++ [c])]
      rw [if_neg (by simp), if_neg (by simp)]
      simp
    · have hcn : ¬ isLatinWordChar c = true := by simpa using hc
      rw [List.takeWhile_cons_of_neg hcn, List.dropWhile_cons_of_neg hcn,
        List.append_nil]
      have hrest : tokenizeAux false [] rest = latinSpecTokens rest := by
        rw [ih [], List.nil_append]
        exact latinSpec_word_flush rest
      by_cases h1 : rustIsWhitespace c = true
      · have hL : tokenizeAux false cur (c :: rest) =
            (if cur = [] then [] else [TextToken.Word cur]) ++
              .Space :: tokenizeAux false [] rest := by
          simp only [tokenizeAux, Bool.false_eq_true, if_false]
          rw [if_pos h1]
        have hR : latinSpecTokens (c :: rest) = .Space :: latinSpecTokens rest := by
          simp only [latinSpecTokens]
          rw [if_pos h1]
        rw [hL, hR, hrest]
      · by_cases h2 : c = softHyphenChar
        · have hL : tokenizeAux false cur (c :: rest) =
              (if cur = [] then [] else [TextToken.Word cur]) ++
                .DiscretionaryHyphen :: tokenizeAux false [] rest := by
            simp only [tokenizeAux, Bool.false_eq_true, if_false]
            rw [if_neg h1, if_pos h2]
          have hR : latinSpecTokens (c :: rest) =
              .DiscretionaryHyphen :: latinSpecTokens rest := by
            simp only [latinSpecTokens]
            rw [if_neg h1, if_pos h2]
          rw [hL, hR, hrest]
        · have h3 : rustIsAsciiPunctuation c = true ∧ c ≠ '\'' ∧ c ≠ '-' := by
            by_contra h3
            exact hcn ((isLatinWordChar_iff c).mpr ⟨h1, h2, h3⟩)
          have hL : tokenizeAux false cur (c :: rest) =
              (if cur = [] then [] else [TextToken.Word cur]) ++
                .Punctuation c :: tokenizeAux false [] rest := by
            simp only [tokenizeAux, Bool.false_eq_true, if_false]
            rw [if_neg h1, if_neg h2, if_pos h3]
          have hR : latinSpecTokens (c :: rest) =
              .Punctuation c :: latinSpecTokens rest := by
            simp only [latinSpecTokens]
            rw [if_neg h1, if_neg h2, if_pos h3]
          rw [hL, hR, hrest]

/-- C5 (amended): tokenization characterized per script.  In Chinese mode
every codepoint maps independently: CJK-punctuation-set codepoints become
Punctuation tokens, whitespace codepoints become Space tokens, and every
other codepoint (including U+00AD) becomes its own one-char Word token.
In Latin mode maximal runs of non-whitespace, non-U+00AD,
non-ASCII-punctuation (apostrophe and hyphen excepted) codepoints form Word
tokens, each such ASCII punctuation codepoint becomes a Punctuation token,
each U+00AD a DiscretionaryHyphen, and every whitespace codepoint becomes
its own Space token (runs of whitespace do not collapse). -/
theorem tokenize_amended_characterization (cs : List Char) :
    tokenizeText cs true = cs.map chineseCharToken ∧
    tokenizeText cs false = latinSpecTokens cs := by
  constructor
  · exact tokenizeAux_chinese cs
  · rw [tokenizeText, tokenizeAux_latin cs [], List.nil_append]
    exact latinSpec_word_flush cs

/-- C5 counterexample: the claim as stated is false on the code.  In Latin
mode a run of two whitespace codepoints produces two Space tokens, not one
collapsed Space; and in Chinese mode U+00AD becomes a Word token, not a
SoftHyphenPoint. -/
theorem tokenize_whitespace_counterexample :
    tokenizeText ['a', ' ', ' ', 'b'] false =
      [.Word ['a'], .Space, .Space, .Word ['b']] ∧
    tokenizeText ['a', ' ', ' ', 'b'] false ≠
      [.Word ['a'], .Space, .Word ['b']] ∧
    tokenizeText [softHyphenChar] true = [.Word [softHyphenChar]] ∧
    tokenizeText [softHyphenChar] true ≠ [.DiscretionaryHyphen] := by
  refine ⟨by decide, by decide, by decide, by decide⟩

/-- True at the string start or after a whitespace char: the condition
(i == 0 or chars at i-1 is whitespace) deciding opening-quote direction. -/
def prevIsStartOrWs : Option Char → Bool
  | none => true
  | some p => rustIsWhitespace p

/-- Walk of fn normalize_punctuation.  prev is the last original char
consumed (the source inspects chars at i-1 of the original array, so
replacements never affect the lookbehind); none at the string start.
Straight quotes become curly quotes, three dots an ellipsis, a double
hyphen an em dash. -/
def normalizePunctuationGo (prev : Option Char) : List Char → List Char
  | [] => []
  | '"' :: rest =>
      (if prevIsStartOrWs prev then Char.ofNat 0x201C else Char.ofNat 0x201D) ::
        normalizePunctuationGo (some '"') rest
  | '\'' :: rest =>
      (if prevIsStartOrWs prev then Char.ofNat 0x2018 else Char.ofNat 0x2019) ::
        normalizePunctuationGo (some '\'') rest
  | '.' :: '.' :: '.' :: rest => Char.ofNat 0x2026 :: normalizePunctuationGo (some '.') rest
  | '-' :: '-' :: rest => Char.ofNat 0x2014 :: normalizePunctuationGo (some '-') rest
  | c :: rest => c :: normalizePunctuationGo (some c) rest

/-- Model of fn normalize_punctuation. -/
def normalizePunctuation (text : List Char) : List Char :=
  normalizePunctuationGo none text

/-- Model of fn process_bidi_text: the bidi analysis is computed and then
discarded, the text is returned as-is (documented pass-through). -/
def processBidiText (text : List Char) : List Char := text

/-- Model of fn find_hyphenation_points: no candidates for words under 6
codepoints or starting with an uppercase codepoint; otherwise indices i
with 3 <= i < len - 3 whose preceding char is a vowel-class codepoint. -/
def findHyphenationPoints (word : List Char) : Option (List Nat) :=
  if word.length < 6 then none
  else if (word.head?.map rustIsUppercase).getD false then none
  else
    let pts := (List.range' 3 (word.length - 3 - 3)).filter fun i =>
      match word.get? (i - 1) with
      | some c => c = 'a' ∨ c = 'e' ∨ c = 'i' ∨ c = 'o' ∨ c = 'u' ∨ c = 'y'
      | none => False
    if pts = [] then none else some pts

/-- Model of fn find_breakpoints: break after any Space, after comma or
semicolon Punctuation, after a DiscretionaryHyphen; for Latin Word tokens
the hyphenation offsets are added to the token index (as in the source,
where the in-word offset is added to the token position); the end of the
token stream is always a breakpoint. -/
def findBreakpoints (tokens : List TextToken) (isCh : Bool) : List Nat :=
  ((tokens.enum.map fun (i, t) =>
    match t with
    | .Space => [i + 1]
    | .Punctuation c => if c = ',' ∨ c = ';' then [i + 1] else []
    | .DiscretionaryHyphen => [i + 1]
    | .Word w =>
        if isCh then []
        else match findHyphenationPoints w with
          | some ps => ps.map (i + ·)
          | none => []).flatten) ++ [tokens.length]

/-- One probe loop of the std slice binary_search (by natural order),
returning whether the loop found the target.  left, right and size mirror
the std implementation state; fuel bounds the iteration count (size halves
every step, so length + 1 probes always finish the search). -/
def binSearchGo (xs : List Nat) (t : Nat) : Nat → Nat → Nat → Nat → Bool
  | _, _, _, 0 => false
  | left, right, size, fuel + 1 =>
    if left < right then
      let mid := left + size / 2
      let v := xs.getD mid 0
      if v < t then binSearchGo xs t (mid + 1) right (right - (mid + 1)) fuel
      else if t < v then binSearchGo xs t left mid (mid - left) fuel
      else true
    else false

/-- Model of breakpoints.binary_search(i).is_ok() in fn greedy_line_breaks.
Identical to std binary search on the sorted lists that matter here;
std leaves the result unspecified on unsorted input. -/
def binarySearchContains (xs : List Nat) (t : Nat) : Bool :=
  binSearchGo xs t 0 xs.length xs.length (xs.length + 1)

/-- Tokens line_start..i of the current line candidate (the slice
tokens of line_start..i in the source). -/
def sliceTokens (tokens : List TextToken) (a b : Nat) : List TextToken :=
  (tokens.drop a).take (b - a)

/-- Inner scan of fn greedy_line_breaks: starting a line at ls, advance i
while the measured width stays within max_width, remembering in best the
furthest breakpoint seen; on overflow report the chosen break (the some
some case), at the end of the tokens report no break (the some none case).
Fuel only bounds the loop; it is proved sufficient below. -/
def scanLine (fc : FontContext) (tokens : List TextToken) (bps : List Nat)
    (maxW : ℚ) (isCh : Bool) (ls : Nat) : Nat → Nat → Nat → Option (Option Nat)
  | _, _, 0 => none
  | i, best, fuel + 1 =>
    if i ≤ tokens.length then
      let w := calculateLineWidth fc (sliceTokens tokens ls i) isCh
      if w ≤ maxW then
        scanLine fc tokens bps maxW isCh ls (i + 1)
          (if binarySearchContains bps i then i else best) fuel
      else
        let breakAt := if ls < best then best else i - 1
        if breakAt ≤ ls then some (some i) else some (some breakAt)
    else some none

/-- Outer loop of fn greedy_line_breaks: collect one break per line, each
scan restarting at the new line start.  Fuel only bounds the loop; it is
proved sufficient below. -/
def greedyOuter (fc : FontContext) (tokens : List TextToken) (bps : List Nat)
    (maxW : ℚ) (isCh : Bool) : Nat → Nat → Option (List Nat)
  | _, 0 => none
  | ls, fuel + 1 =>
    match scanLine fc tokens bps maxW isCh ls (ls + 1) ls (tokens.length + 2) with
    | none => none
    | some none => some []
    | some (some b) =>
        (greedyOuter fc tokens bps maxW isCh b fuel).map (b :: ·)

/-- Model of fn greedy_line_breaks: empty tokens give no breaks; otherwise
run the loop and, if the last break falls short of the token count, append
a final break at the end.  The none branch of the loop is unreachable
(fuel sufficiency is proved below); it returns the empty list. -/
def greedyLineBreaks (fc : FontContext) (tokens : List TextToken) (bps : List Nat)
    (maxW : ℚ) (isCh : Bool) : List Nat :=
  if tokens = [] then []
  else
    match greedyOuter fc tokens bps maxW isCh 0 (tokens.length + 1) with
    | none => []
    | some bs =>
        if (bs.getLast?.getD 0) < tokens.length then bs ++ [tokens.length] else bs

/-- Rust f32::clamp: lower bound wins first, then upper bound. -/
def rustClamp (x lo hi : ℚ) : ℚ :=
  if x < lo then lo else if hi < x then hi else x

/-- Token walk of fn justify_line: every Space token gets one adjustment
record carrying the running char position; other tokens advance the
position by their char count. -/
def justifyAdjustGo (spaceW clamped : ℚ) :
    List TextToken → Nat → List TextToken × List SpaceAdjustment
  | [], _ => ([], [])
  | .Space :: rest, pos =>
      let r := justifyAdjustGo spaceW clamped rest (pos + 1)
      (.Space :: r.1,
        { position := pos, baseWidth := spaceW, adjustedWidth := spaceW + clamped,
          adjustmentRatio := clamped / spaceW } :: r.2)
  | .Word w :: rest, pos =>
      let r := justifyAdjustGo spaceW clamped rest (pos + w.length)
      (.Word w :: r.1, r.2)
  | .Punctuation c :: rest, pos =>
      let r := justifyAdjustGo spaceW clamped rest (pos + 1)
      (.Punctuation c :: r.1, r.2)
  | .DiscretionaryHyphen :: rest, pos =>
      let r := justifyAdjustGo spaceW clamped rest (pos + 1)
      (.DiscretionaryHyphen :: r.1, r.2)

/-- Model of fn justify_line: distribute the slack evenly over the Space
tokens, clamped per space to half the unadjusted space width in either
direction. -/
def justifyLine (fc : FontContext) (tokens : List TextToken) (maxW : ℚ)
    (isCh : Bool) : List TextToken × List SpaceAdjustment :=
  let currentW := calculateLineWidth fc tokens isCh
  let extraSpace := maxW - currentW
  if extraSpace ≤ 0 ∨ tokens = [] then (tokens, [])
  else
    let spaceCount := (tokens.filter isSpaceTok).length
    if spaceCount = 0 then (tokens, [])
    else
      let baseSpaceW := calculateTextWidth fc [' '] isCh
      let spaceAdjustment := extraSpace / (spaceCount : ℚ)
      let clamped := rustClamp spaceAdjustment (-(baseSpaceW * (1/2))) (baseSpaceW * (1/2))
      justifyAdjustGo baseSpaceW clamped tokens 0

/-- Line assembly loop of fn compose_paragraph: walk the break list with
the current line start and baseline, skipping breaks at or before the
line start, justifying when the script is Latin, the mode is Justify and
the line is not the first of the paragraph. -/
def composeLines (fc : FontContext) (tokens : List TextToken) (maxW leading : ℚ)
    (isCh : Bool) : List Nat → Nat → ℚ → List FormattedLine
  | [], _, _ => []
  | b :: rest, ls, baseline =>
    if b ≤ ls then composeLines fc tokens maxW leading isCh rest ls baseline
    else
      let lineTokens := sliceTokens tokens ls b
      let lineWidth := calculateLineWidth fc lineTokens isCh
      let jz := if ¬(isCh = true) ∧ fc.justification = Justification.Justify ∧ ls ≠ 0 then
          justifyLine fc lineTokens maxW isCh
        else (lineTokens, [])
      { text := tokensToString jz.1, x := 0, y := 0, width := lineWidth,
        height := leading, isChinese := isCh,
        fontSize := if isCh then fc.fontSizeChinese else fc.fontSizeEnglish,
        baseline := baseline, tokens := jz.1, spaceAdjustments := jz.2,
        isJustified := !jz.2.isEmpty, hyphenated := endsWithHyphenTokens jz.1 } ::
        composeLines fc tokens maxW leading isCh rest b (baseline + leading)

/-- Model of fn compose_paragraph: find breakpoints, run the greedy fill,
assemble the lines. -/
def composeParagraph (fc : FontContext) (tokens : List TextToken)
    (maxW leading : ℚ) (isCh : Bool) : List FormattedLine :=
  let bps := findBreakpoints tokens isCh
  let breaks := greedyLineBreaks fc tokens bps maxW isCh
  composeLines fc tokens maxW leading isCh breaks 0 0

theorem sliceTokens_length (tokens : List TextToken) (a b : Nat) :
    (sliceTokens tokens a b).length = min (b - a) (tokens.length - a) := by
  simp [sliceTokens]

theorem justifyAdjustGo_fst (spaceW clamped : ℚ) :
    ∀ (ts : List TextToken) (pos : Nat),
      (justifyAdjustGo spaceW clamped ts pos).1 = ts := by
  intro ts
  induction ts with
  | nil => intro pos; rfl
  | cons t rest ih =>
    intro pos
    cases t <;> simp [justifyAdjustGo, ih]

theorem justifyLine_fst (fc : FontContext) (tokens : List TextToken)
    (maxW : ℚ) (isCh : Bool) : (justifyLine fc tokens maxW isCh).1 = tokens := by
  rw [justifyLine]
  split
  · rfl
  · dsimp only
    split
    · rfl
    · exact justifyAdjustGo_fst _ _ tokens 0

/-- A good line segment for the no-overflow property: nonempty, within the
token stream, and either fitting in max_width or a forced single-token
overflow. -/
def goodSeg (fc : FontContext) (tokens : List TextToken) (maxW : ℚ)
    (isCh : Bool) (a b : Nat) : Prop :=
  a < b ∧ b ≤ tokens.length ∧
    (calculateLineWidth fc (sliceTokens tokens a b) isCh ≤ maxW ∨
      (b = a + 1 ∧ maxW < calculateLineWidth fc (sliceTokens tokens a b) isCh))

/-- The chain property the greedy outer loop establishes: every collected
break is a good segment from the previous one, and the remainder after the
last break fits (or is empty). -/
def chainFrom (fc : FontContext) (tokens : List TextToken) (maxW : ℚ)
    (isCh : Bool) : Nat → List Nat → Prop
  | ls, [] =>
      calculateLineWidth fc (sliceTokens tokens ls tokens.length) isCh ≤ maxW ∨
        ls = tokens.length
  | ls, b :: rest => goodSeg fc tokens maxW isCh ls b ∧
      chainFrom fc tokens maxW isCh b rest

/-- The property composeLines consumes: along the break list, every break
beyond the current line start is a good segment. -/
def slicesGood (fc : FontContext) (tokens : List TextToken) (maxW : ℚ)
    (isCh : Bool) : Nat → List Nat → Prop
  | _, [] => True
  | ls, b :: rest =>
      (ls < b → goodSeg fc tokens maxW isCh ls b ∧
        slicesGood fc tokens maxW isCh b rest) ∧
      (¬ ls < b → slicesGood fc tokens maxW isCh ls rest)

theorem scanLine_spec (fc : FontContext) (tokens : List TextToken)
    (bps : List Nat) (maxW : ℚ) (isCh : Bool) (ls : Nat) :
    ∀ (fuel i best : Nat),
      ls < i →
      i ≤ tokens.length + 1 →
      (best = ls ∨ (ls < best ∧ best < i ∧
        calculateLineWidth fc (sliceTokens tokens ls best) isCh ≤ maxW)) →
      (i = ls + 1 ∨
        calculateLineWidth fc (sliceTokens tokens ls (i - 1)) isCh ≤ maxW) →
      tokens.length + 1 - i < fuel →
      scanLine fc tokens bps maxW isCh ls i best fuel ≠ none ∧
      (scanLine fc tokens bps maxW isCh ls i best fuel = some none →
        calculateLineWidth fc (sliceTokens tokens ls tokens.length) isCh ≤ maxW ∨
          ls = tokens.length) ∧
      (∀ b, scanLine fc tokens bps maxW isCh ls i best fuel = some (some b) →
        goodSeg fc tokens maxW isCh ls b) := by
  intro fuel
  induction fuel with
  | zero => intro i best _ _ _ _ h5; omega
  | succ fuel ih =>
    intro i best h1 h2 h3 h4 h5
    rw [scanLine]
    by_cases hi : i ≤ tokens.length
    · rw [if_pos hi]
      by_cases hle : calculateLineWidth fc (sliceTokens tokens ls i) isCh ≤ maxW
      · rw [if_pos hle]
        refine ih (i + 1) (if binarySearchContains bps i then i else best)
          (by omega) (by omega) ?_ (Or.inr (by simpa using hle)) (by omega)
        by_cases hbp : binarySearchContains bps i
        · rw [if_pos hbp]
          exact Or.inr ⟨h1, by omega, hle⟩
        · rw [if_neg hbp]
          rcases h3 with h | ⟨ha, hb, hc⟩
          · exact Or.inl h
          · exact Or.inr ⟨ha, by omega, hc⟩
      · rw [if_neg hle]
        by_cases hbest : ls < best
        · rw [if_pos hbest, if_neg (by omega : ¬ best ≤ ls)]
          refine ⟨by simp, by simp, ?_⟩
          intro b hb
          obtain rfl : best = b := by injection hb with hb; injection hb
          rcases h3 with h | ⟨_, hlt, hw⟩
          · omega
          · exact ⟨hbest, by omega, Or.inl hw⟩
        · rw [if_neg hbest]
          by_cases hba : i - 1 ≤ ls
          · rw [if_pos hba]
            refine ⟨by simp, by simp, ?_⟩
            intro b hb
            obtain rfl : b = i := by
              injection hb with hb
              injection hb with hb
              omega
            exact ⟨by omega, by omega, Or.inr ⟨by omega, lt_of_not_le hle⟩⟩
          · rw [if_neg hba]
            refine ⟨by simp, by simp, ?_⟩
            intro b hb
            obtain rfl : i - 1 = b := by injection hb with hb; injection hb
            rcases h4 with h | hw
            · omega
            · exact ⟨by omega, by omega, Or.inl hw⟩
    · rw [if_neg hi]
      refine ⟨by simp, ?_, by simp⟩
      intro _
      rcases h4 with h | hw
      · exact Or.inr (by omega)
      · have : i - 1 = tokens.length := by omega
        rw [this] at hw
        exact Or.inl hw

theorem greedyOuter_spec (fc : FontContext) (tokens : List TextToken)
    (bps : List Nat) (maxW : ℚ) (isCh : Bool) :
    ∀ (fuel ls : Nat), ls ≤ tokens.length → tokens.length - ls < fuel →
      ∃ bs, greedyOuter fc tokens bps maxW isCh ls fuel = some bs ∧
        chainFrom fc tokens maxW isCh ls bs := by
  intro fuel
  induction fuel with
  | zero => intro ls _ h; omega
  | succ fuel ih =>
    intro ls hls hfuel
    have hscan := scanLine_spec fc tokens bps maxW isCh ls (tokens.length + 2)
      (ls + 1) ls (by omega) (by omega) (Or.inl rfl) (Or.inl rfl) (by omega)
    rw [greedyOuter]
    cases hs : scanLine fc tokens bps maxW isCh ls (ls + 1) ls (tokens.length + 2) with
    | none => exact absurd hs hscan.1
    | some o =>
      cases o with
      | none =>
        refine ⟨[], rfl, ?_⟩
        exact hscan.2.1 hs
      | some b =>
        have hg := hscan.2.2 b hs
        obtain ⟨hlt, hble, hw⟩ := hg
        obtain ⟨bs, hbs, hchain⟩ := ih b hble (by omega)
        refine ⟨b :: bs, ?_, ⟨⟨hlt, hble, hw⟩, hchain⟩⟩
        show (greedyOuter fc tokens bps maxW isCh b fuel).map (b :: ·) = some (b :: bs)
        rw [hbs]
        rfl

theorem getLastD_cons : ∀ (rest : List Nat) (b d : Nat),
    (b :: rest).getLast?.getD d = rest.getLast?.getD b := by
  intro rest
  induction rest with
  | nil => intro b d; simp
  | cons x xs ih =>
    intro b d
    rw [List.getLast?_cons_cons, ih x d, ih x b]

theorem chainFrom_slicesGood (fc : FontContext) (tokens : List TextToken)
    (maxW : ℚ) (isCh : Bool) :
    ∀ (bs : List Nat) (ls : Nat), chainFrom fc tokens maxW isCh ls bs →
      (bs.getLast?.getD ls < tokens.length →
        slicesGood fc tokens maxW isCh ls (bs ++ [tokens.length])) ∧
      (¬ bs.getLast?.getD ls < tokens.length →
        slicesGood fc tokens maxW isCh ls bs) := by
  intro bs
  induction bs with
  | nil =>
    intro ls hch
    refine ⟨?_, fun _ => trivial⟩
    intro hlt
    simp only [List.getLast?_nil, Option.getD_none] at hlt
    refine ⟨fun _ => ⟨⟨hlt, le_refl _, ?_⟩, trivial⟩, fun h => absurd hlt h⟩
    rcases hch with hw | he
    · exact Or.inl hw
    · omega
  | cons b rest ih =>
    intro ls hch
    obtain ⟨hg, hchain⟩ := hch
    have hrec := ih b hchain
    have hlast : (b :: rest).getLast?.getD ls = rest.getLast?.getD b :=
      getLastD_cons rest b ls
    constructor
    · intro hlt
      rw [hlast] at hlt
      exact ⟨fun _ => ⟨hg, hrec.1 hlt⟩, fun h => absurd hg.1 h⟩
    · intro hlt
      rw [hlast] at hlt
      exact ⟨fun _ => ⟨hg, hrec.2 hlt⟩, fun h => absurd hg.1 h⟩

theorem composeLines_good (fc : FontContext) (tokens : List TextToken)
    (maxW leading : ℚ) (isCh : Bool) :
    ∀ (bs : List Nat) (ls : Nat) (baseline : ℚ),
      slicesGood fc tokens maxW isCh ls bs →
      ∀ line ∈ composeLines fc tokens maxW leading isCh bs ls baseline,
        line.width ≤ maxW ∨ (line.tokens.length = 1 ∧ maxW < line.width) := by
  intro bs
  induction bs with
  | nil =>
    intro ls baseline _ line hline
    simp [composeLines] at hline
  | cons b rest ih =>
    intro ls baseline hsg line hline
    rw [composeLines] at hline
    by_cases hb : b ≤ ls
    · rw [if_pos hb] at hline
      exact ih ls baseline (hsg.2 (by omega)) line hline
    · rw [if_neg hb] at hline
      obtain ⟨hg, hrest⟩ := hsg.1 (by omega)
      rcases List.mem_cons.mp hline with heq | hmem
      · have hfst : (if ¬(isCh = true) ∧ fc.justification = Justification.Justify ∧
            ls ≠ 0 then justifyLine fc (sliceTokens tokens ls b) maxW isCh
            else (sliceTokens tokens ls b, [])).1 = sliceTokens tokens ls b := by
          split
          · exact justifyLine_fst fc _ maxW isCh
          · rfl
        have hwidth : line.width =
            calculateLineWidth fc (sliceTokens tokens ls b) isCh := by rw [heq]
        have htoks : line.tokens = sliceTokens tokens ls b := by rw [heq]; exact hfst
        rcases hg.2.2 with hw | ⟨hb1, hgt⟩
        · exact Or.inl (hwidth ▸ hw)
        · refine Or.inr ⟨?_, hwidth ▸ hgt⟩
          rw [htoks, sliceTokens_length, hb1]
          have h1 : ls < tokens.length := by
            have := hg.2.1
            omega
          omega
      · exact ih b (baseline + leading) hrest line hmem

/-- C1: for every token sequence and every positive max_width, each line
produced by the greedy line-fill (the composed lines, whose width field is
the measured pre-justification width) has measured width at most max_width,
except when the line is a single token wider than max_width (the
forced-progress break, which cannot split a token).  The breakpoint list is
the one find_breakpoints computes. -/
theorem greedy_fill_no_overflow (fc : FontContext) (tokens : List TextToken)
    (maxW leading : ℚ) (isCh : Bool) (hpos : 0 < maxW) :
    ∀ line ∈ composeParagraph fc tokens maxW leading isCh,
      line.width ≤ maxW ∨ (line.tokens.length = 1 ∧ maxW < line.width) := by
  intro line hline
  rw [composeParagraph] at hline
  by_cases ht : tokens = []
  · rw [greedyLineBreaks, if_pos ht] at hline
    simp [composeLines] at hline
  · obtain ⟨bs, hbs, hchain⟩ := greedyOuter_spec fc tokens
      (findBreakpoints tokens isCh) maxW isCh (tokens.length + 1) 0
      (Nat.zero_le _) (by omega)
    have hs := chainFrom_slicesGood fc tokens maxW isCh bs 0 hchain
    rw [greedyLineBreaks, if_neg ht, hbs] at hline
    dsimp only at hline
    by_cases hlast : bs.getLast?.getD 0 < tokens.length
    · rw [if_pos hlast] at hline
      exact composeLines_good fc tokens maxW leading isCh _ 0 0 (hs.1 hlast) line hline
    · rw [if_neg hlast] at hline
      exact composeLines_good fc tokens maxW leading isCh _ 0 0 (hs.2 hlast) line hline

/-- An inert default line used only as the List.getD fallback in concrete
instantiations. -/
def dummyLine : FormattedLine :=
  { text := [], x := 0, y := 0, width := 0, height := 0, isChinese := false,
    fontSize := 0, baseline := 0, tokens := [], spaceAdjustments := [],
    isJustified := false, hyphenated := false }

/-- A concrete font context with constant metrics and Justify mode, used by
witness instantiations. -/
def fcJustify : FontContext :=
  { chineseAdvance := fun _ => 50, englishAdvance := fun _ => 3,
    chineseKern := fun _ _ => none, englishKern := fun _ _ => none,
    chineseUpem := 1000, englishUpem := 1000,
    pageWidth := 200, pageHeight := 200, margin := 20,
    fontSizeChinese := 40, fontSizeEnglish := 10, lineSpacing := 7/5,
    trackingChinese := 0, trackingEnglish := 0,
    justification := Justification.Justify, paragraphSpacing := 3/5 }

/-- Concrete token list for the C1 witness. -/
def toksC1 : List TextToken := tokenizeText ['h', 'i', ' ', 'h', 'o'] false

/-- Witness for C1: the theorem applied at a concrete composed line. -/
theorem greedy_fill_no_overflow_witness :
    ((composeParagraph fcJustify toksC1 20 14 false).getD 0 dummyLine).width ≤ 20 ∨
      (((composeParagraph fcJustify toksC1 20 14 false).getD 0 dummyLine).tokens.length = 1 ∧
        20 < ((composeParagraph fcJustify toksC1 20 14 false).getD 0 dummyLine).width) :=
  greedy_fill_no_overflow fcJustify toksC1 20 14 false (by decide) _ (by decide)

/-- Leading-token collection loop shared by fn try_pull_word_from_previous_line
and fn try_pull_word_from_next_line: push leading Space tokens, then push the
first Word and stop; stop without a Word at any other token kind. -/
def leadingWordTokens : List TextToken → List TextToken
  | .Word w :: _ => [.Word w]
  | .Space :: rest => .Space :: leadingWordTokens rest
  | _ => []

/-- Reverse scan of fn try_push_word_to_next_line: walk from the end of the
line, collecting trailing Space tokens; the loop records remove_from only
when it reaches a Word, and leaves it at the token count otherwise.
Arguments: reversed remaining tokens, accumulator (already in final order),
one past the index of the current token, current remove_from. -/
def pushScanGo (rf : Nat) : List TextToken → List TextToken → Nat → List TextToken × Nat
  | [], acc, _ => (acc, rf)
  | .Word w :: _, acc, i => (.Word w :: acc, i - 1)
  | .Space :: rest, acc, i => pushScanGo rf rest (.Space :: acc) (i - 1)
  | _ :: _, acc, _ => (acc, rf)

/-- The (trailing_tokens, remove_from) pair of fn try_push_word_to_next_line. -/
def pushScan (tokens : List TextToken) : List TextToken × Nat :=
  pushScanGo tokens.length tokens.reverse [] tokens.length

/-- Model of fn try_pull_word_from_previous_line: move the first word of the
last line (with its leading spaces) onto the end of the previous line when
the previous line plus the moved width fits in max_width. -/
def tryPullWordFromPreviousLine (fc : FontContext) (lines : List FormattedLine)
    (lastIndex : Nat) (maxW : ℚ) (isCh : Bool) : List FormattedLine :=
  if lastIndex = 0 then lines
  else
    match lines.get? lastIndex, lines.get? (lastIndex - 1) with
    | some lastL, some prevL =>
      if lastL.tokens = [] then lines
      else
        let firstWordTokens := leadingWordTokens lastL.tokens
        if firstWordTokens = [] then lines
        else
          let addedWidth := calculateLineWidth fc firstWordTokens isCh
          if prevL.width + addedWidth ≤ maxW then
            let keep := lastL.tokens.drop firstWordTokens.length
            (lines.set (lastIndex - 1)
              { prevL with
                  tokens := prevL.tokens ++ firstWordTokens
                  width := prevL.width + addedWidth
                  text := tokensToString (prevL.tokens ++ firstWordTokens) }).set lastIndex
              { lastL with
                  tokens := keep
                  width := calculateLineWidth fc keep isCh
                  text := tokensToString keep }
          else lines
    | _, _ => lines

/-- Model of fn try_push_word_to_next_line: move the last word of a line
(with trailing spaces) onto the front of the next line when the next line
plus the moved width fits in max_width.  remove_from is whatever the
reverse scan left it at. -/
def tryPushWordToNextLine (fc : FontContext) (lines : List FormattedLine)
    (index : Nat) (maxW : ℚ) (isCh : Bool) : List FormattedLine :=
  if lines.length ≤ index + 1 then lines
  else
    match lines.get? index, lines.get? (index + 1) with
    | some curL, some nextL =>
      if curL.tokens = [] then lines
      else
        let scan := pushScan curL.tokens
        if scan.1 = [] then lines
        else
          let addedWidth := calculateLineWidth fc scan.1 isCh
          if nextL.width + addedWidth ≤ maxW then
            let keep := curL.tokens.take scan.2
            (lines.set (index + 1)
              { nextL with
                  tokens := scan.1 ++ nextL.tokens
                  width := nextL.width + addedWidth
                  text := tokensToString (scan.1 ++ nextL.tokens) }).set index
              { curL with
                  tokens := keep
                  width := calculateLineWidth fc keep isCh
                  text := tokensToString keep }
          else lines
    | _, _ => lines

/-- Model of fn try_pull_word_from_next_line: move the first word of the
next line (with its leading spaces) onto the end of the current line when
the current line plus the moved width fits in max_width. -/
def tryPullWordFromNextLine (fc : FontContext) (lines : List FormattedLine)
    (index : Nat) (maxW : ℚ) (isCh : Bool) : List FormattedLine :=
  if lines.length ≤ index + 1 then lines
  else
    match lines.get? index, lines.get? (index + 1) with
    | some curL, some nextL =>
      if nextL.tokens = [] then lines
      else
        let firstWordTokens := leadingWordTokens nextL.tokens
        if firstWordTokens = [] then lines
        else
          let addedWidth := calculateLineWidth fc firstWordTokens isCh
          if curL.width + addedWidth ≤ maxW then
            let keep := nextL.tokens.drop firstWordTokens.length
            (lines.set index
              { curL with
                  tokens := curL.tokens ++ firstWordTokens
                  width := curL.width + addedWidth
                  text := tokensToString (curL.tokens ++ firstWordTokens) }).set (index + 1)
              { nextL with
                  tokens := keep
                  width := calculateLineWidth fc keep isCh
                  text := tokensToString keep }
          else lines
    | _, _ => lines

/-- One step of the 5..15 words-per-line loop in fn post_process_lines. -/
def densityStep (fc : FontContext) (maxW : ℚ) (isCh : Bool)
    (lines : List FormattedLine) (i : Nat) : List FormattedLine :=
  let wc := wordCountTokens ((lines.getD i dummyLine).tokens)
  if 0 < wc ∧ (wc < 5 ∨ 15 < wc) then
    if wc < 5 ∧ i + 1 < lines.length then
      tryPushWordToNextLine fc lines i maxW isCh
    else if 15 < wc ∧ i + 1 < lines.length then
      tryPullWordFromNextLine fc lines i maxW isCh
    else lines
  else lines

/-- One step of the stacked-hyphen loop in fn post_process_lines. -/
def stackedHyphenStep (fc : FontContext) (maxW : ℚ) (isCh : Bool)
    (lines : List FormattedLine) (i : Nat) : List FormattedLine :=
  if endsWithHyphenTokens ((lines.getD (i - 1) dummyLine).tokens) ∧
      endsWithHyphenTokens ((lines.getD i dummyLine).tokens) then
    tryPullWordFromNextLine fc lines (i - 1) maxW isCh
  else lines

/-- One step of fn adjust_rag: if three consecutive widths are strictly
monotone, nudge the middle width toward the neighbor average, clamped to
five percent of the middle width; tokens and text are untouched. -/
def adjustRagStep (lines : List FormattedLine) (i : Nat) : List FormattedLine :=
  let prev := (lines.getD (i - 1) dummyLine).width
  let curr := (lines.getD i dummyLine).width
  let next := (lines.getD (i + 1) dummyLine).width
  if (prev < curr ∧ curr < next) ∨ (curr < prev ∧ next < curr) then
    let target := (prev + next) / 2
    let delta := target - curr
    let maxDelta := curr * (1/20)
    let clamped := rustClamp delta (-maxDelta) maxDelta
    lines.set i
      (let l := lines.getD i dummyLine
       { l with width := l.width + clamped })
  else lines

/-- Model of fn adjust_rag. -/
def adjustRag (lines : List FormattedLine) : List FormattedLine :=
  if lines.length < 3 then lines
  else (List.range' 1 (lines.length - 2)).foldl adjustRagStep lines

/-- The widow fix of fn post_process_lines: when the last line has exactly
one word, try pulling it (the first word of the last line) up to the
previous line. -/
def postWidowFix (fc : FontContext) (maxW : ℚ) (isCh : Bool)
    (lines : List FormattedLine) : List FormattedLine :=
  if wordCountTokens ((lines.getD (lines.length - 1) dummyLine).tokens) = 1 then
    tryPullWordFromPreviousLine fc lines (lines.length - 1) maxW isCh
  else lines

/-- The orphan fix of fn post_process_lines: when the first line has exactly
one word, try pushing its trailing word down to the second line. -/
def postOrphanFix (fc : FontContext) (maxW : ℚ) (isCh : Bool)
    (lines : List FormattedLine) : List FormattedLine :=
  if wordCountTokens ((lines.getD 0 dummyLine).tokens) = 1 ∧ 1 < lines.length then
    tryPushWordToNextLine fc lines 0 maxW isCh
  else lines

/-- The Latin-only block of fn post_process_lines: widow fix, orphan fix,
then the 5..15 words-per-line loop. -/
def postWidowOrphanDensity (fc : FontContext) (maxW : ℚ) (isCh : Bool)
    (lines : List FormattedLine) : List FormattedLine :=
  if ¬(isCh = true) ∧ 2 ≤ lines.length then
    let b := postOrphanFix fc maxW isCh (postWidowFix fc maxW isCh lines)
    (List.range b.length).foldl (densityStep fc maxW isCh) b
  else lines

/-- Model of fn post_process_lines: widow fix, orphan fix, words-per-line
loop (all Latin-only, two or more lines), stacked-hyphen loop, then rag
adjustment for non-justified Latin text. -/
def postProcessLines (fc : FontContext) (lines : List FormattedLine)
    (maxW : ℚ) (isCh : Bool) : List FormattedLine :=
  if lines = [] then lines
  else
    let l1 := postWidowOrphanDensity fc maxW isCh lines
    let l2 := (List.range' 1 (l1.length - 1)).foldl (stackedHyphenStep fc maxW isCh) l1
    if ¬(isCh = true) ∧ fc.justification ≠ Justification.Justify then adjustRag l2
    else l2

/-- Model of fn layout_paragraph (the pure value; the Result wrapper never
constructs an error, see layoutParagraph below): normalize punctuation,
bidi pass-through, tokenize, leading with the plus-four floor, compose,
post-process, paragraph height from first and last baselines. -/
def layoutParagraphCore (fc : FontContext) (text : List Char) (x y maxW : ℚ)
    (isCh : Bool) : FormattedParagraph :=
  let normalizedText := normalizePunctuation text
  let bidiText := processBidiText normalizedText
  let tokens := tokenizeText bidiText isCh
  let fontSize := if isCh then fc.fontSizeChinese else fc.fontSizeEnglish
  let leading0 := fontSize * fc.lineSpacing
  let leading := if leading0 < fontSize + 4 then fontSize + 4 else leading0
  let composed := composeParagraph fc tokens maxW leading isCh
  let lines := postProcessLines fc composed maxW isCh
  let totalHeight :=
    match lines.head?, lines.getLast? with
    | some firstL, some lastL => (lastL.baseline - firstL.baseline) + leading
    | _, _ => leading
  { lines := lines, x := x, y := y, width := maxW, height := totalHeight,
    isChinese := isCh, fontSize := fontSize, lineSpacing := fc.lineSpacing,
    leading := leading }

/-- Model of fn layout_paragraph with its Result type: every internal step
of the source returns Ok, so the whole function is a single Ok. -/
def layoutParagraph (fc : FontContext) (text : List Char) (x y maxW : ℚ)
    (isCh : Bool) : Except String FormattedParagraph :=
  Except.ok (layoutParagraphCore fc text x y maxW isCh)

/-- The token-text round-trip invariant of a line: the stored text is the
token list rendered in order. -/
def TextInv (l : FormattedLine) : Prop := l.text = tokensToString l.tokens

theorem textInv_update (l : FormattedLine) (ts : List TextToken) (w : ℚ) :
    TextInv { l with tokens := ts, width := w, text := tokensToString ts } := rfl

theorem mem_set_preserve {P : FormattedLine → Prop}
    (lines : List FormattedLine) (i : Nat) (x : FormattedLine)
    (hl : ∀ a ∈ lines, P a) (hx : P x) : ∀ a ∈ lines.set i x, P a := by
  intro a ha
  rcases List.mem_or_eq_of_mem_set ha with h | rfl
  · exact hl a h
  · exact hx

theorem foldl_preserve {α β : Type} (P : α → Prop) (f : α → β → α)
    (hf : ∀ s b, P s → P (f s b)) :
    ∀ (l : List β) (init : α), P init → P (l.foldl f init) := by
  intro l
  induction l with
  | nil => intro init h; exact h
  | cons b t ih => intro init h; exact ih (f init b) (hf init b h)

theorem tryPullWordFromPreviousLine_textInv (fc : FontContext)
    (lines : List FormattedLine) (lastIndex : Nat) (maxW : ℚ) (isCh : Bool)
    (h : ∀ l ∈ lines, TextInv l) :
    ∀ l ∈ tryPullWordFromPreviousLine fc lines lastIndex maxW isCh, TextInv l := by
  rw [tryPullWordFromPreviousLine]
  split
  · exact h
  · split
    · next lastL prevL _ _ =>
      split
      · exact h
      · dsimp only
        split
        · exact h
        · split
          · exact mem_set_preserve _ _ _
              (mem_set_preserve _ _ _ h (textInv_update _ _ _)) (textInv_update _ _ _)
          · exact h
    · exact h

theorem tryPushWordToNextLine_textInv (fc : FontContext)
    (lines : List FormattedLine) (index : Nat) (maxW : ℚ) (isCh : Bool)
    (h : ∀ l ∈ lines, TextInv l) :
    ∀ l ∈ tryPushWordToNextLine fc lines index maxW isCh, TextInv l := by
  rw [tryPushWordToNextLine]
  split
  · exact h
  · split
    · next curL nextL _ _ =>
      split
      · exact h
      · dsimp only
        split
        · exact h
        · split
          · exact mem_set_preserve _ _ _
              (mem_set_preserve _ _ _ h (textInv_update _ _ _)) (textInv_update _ _ _)
          · exact h
    · exact h

theorem tryPullWordFromNextLine_textInv (fc : FontContext)
    (lines : List FormattedLine) (index : Nat) (maxW : ℚ) (isCh : Bool)
    (h : ∀ l ∈ lines, TextInv l) :
    ∀ l ∈ tryPullWordFromNextLine fc lines index maxW isCh, TextInv l := by
  rw [tryPullWordFromNextLine]
  split
  · exact h
  · split
    · next curL nextL _ _ =>
      split
      · exact h
      · dsimp only
        split
        · exact h
        · split
          · exact mem_set_preserve _ _ _
              (mem_set_preserve _ _ _ h (textInv_update _ _ _)) (textInv_update _ _ _)
          · exact h
    · exact h

theorem densityStep_textInv (fc : FontContext) (maxW : ℚ) (isCh : Bool)
    (lines : List FormattedLine) (i : Nat) (h : ∀ l ∈ lines, TextInv l) :
    ∀ l ∈ densityStep fc maxW isCh lines i, TextInv l := by
  rw [densityStep]
  split
  · split
    · exact tryPushWordToNextLine_textInv fc lines i maxW isCh h
    · split
      · exact tryPullWordFromNextLine_textInv fc lines i maxW isCh h
      · exact h
  · exact h

theorem stackedHyphenStep_textInv (fc : FontContext) (maxW : ℚ) (isCh : Bool)
    (lines : List FormattedLine) (i : Nat) (h : ∀ l ∈ lines, TextInv l) :
    ∀ l ∈ stackedHyphenStep fc maxW isCh lines i, TextInv l := by
  rw [stackedHyphenStep]
  split
  · exact tryPullWordFromNextLine_textInv fc lines (i - 1) maxW isCh h
  · exact h

theorem adjustRagStep_textInv (lines : List FormattedLine) (i : Nat)
    (h : ∀ l ∈ lines, TextInv l) : ∀ l ∈ adjustRagStep lines i, TextInv l := by
  rw [adjustRagStep]
  split
  · refine mem_set_preserve _ _ _ h ?_
    have hx : TextInv (lines.getD i dummyLine) := by
      by_cases hi : i < lines.length
      · have hmem : lines.getD i dummyLine ∈ lines := by
          rw [List.getD_eq_getElem?_getD, List.getElem?_eq_getElem hi]
          exact List.getElem_mem hi
        exact h _ hmem
      · have heq : lines.getD i dummyLine = dummyLine := by
          rw [List.getD_eq_getElem?_getD, List.getElem?_eq_none (by omega)]
          rfl
        rw [heq]
        rfl
    unfold TextInv at hx ⊢
    exact hx
  · exact h

theorem adjustRag_textInv (lines : List FormattedLine)
    (h : ∀ l ∈ lines, TextInv l) : ∀ l ∈ adjustRag lines, TextInv l := by
  rw [adjustRag]
  split
  · exact h
  · exact foldl_preserve (fun s => ∀ l ∈ s, TextInv l) adjustRagStep
      (fun s b hs => adjustRagStep_textInv s b hs) _ lines h

theorem postWidowFix_textInv (fc : FontContext) (maxW : ℚ) (isCh : Bool)
    (lines : List FormattedLine) (h : ∀ l ∈ lines, TextInv l) :
    ∀ l ∈ postWidowFix fc maxW isCh lines, TextInv l := by
  rw [postWidowFix]
  split
  · exact tryPullWordFromPreviousLine_textInv fc lines _ maxW isCh h
  · exact h

theorem postOrphanFix_textInv (fc : FontContext) (maxW : ℚ) (isCh : Bool)
    (lines : List FormattedLine) (h : ∀ l ∈ lines, TextInv l) :
    ∀ l ∈ postOrphanFix fc maxW isCh lines, TextInv l := by
  rw [postOrphanFix]
  split
  · exact tryPushWordToNextLine_textInv fc lines 0 maxW isCh h
  · exact h

theorem postWidowOrphanDensity_textInv (fc : FontContext) (maxW : ℚ)
    (isCh : Bool) (lines : List FormattedLine) (h : ∀ l ∈ lines, TextInv l) :
    ∀ l ∈ postWidowOrphanDensity fc maxW isCh lines, TextInv l := by
  rw [postWidowOrphanDensity]
  split
  · exact foldl_preserve (fun s => ∀ l ∈ s, TextInv l) (densityStep fc maxW isCh)
      (fun s b hs => densityStep_textInv fc maxW isCh s b hs) _ _
      (postOrphanFix_textInv fc maxW isCh _ (postWidowFix_textInv fc maxW isCh lines h))
  · exact h

theorem postProcessLines_textInv (fc : FontContext) (lines : List FormattedLine)
    (maxW : ℚ) (isCh : Bool) (h : ∀ l ∈ lines, TextInv l) :
    ∀ l ∈ postProcessLines fc lines maxW isCh, TextInv l := by
  rw [postProcessLines]
  split
  · exact h
  · dsimp only
    have h2 := foldl_preserve (fun s => ∀ l ∈ s, TextInv l)
      (stackedHyphenStep fc maxW isCh)
      (fun s b hs => stackedHyphenStep_textInv fc maxW isCh s b hs)
      (List.range' 1 ((postWidowOrphanDensity fc maxW isCh lines).length - 1))
      (postWidowOrphanDensity fc maxW isCh lines)
      (postWidowOrphanDensity_textInv fc maxW isCh lines h)
    split
    · exact adjustRag_textInv _ h2
    · exact h2

theorem composeLines_textInv (fc : FontContext) (tokens : List TextToken)
    (maxW leading : ℚ) (isCh : Bool) :
    ∀ (bs : List Nat) (ls : Nat) (baseline : ℚ),
      ∀ l ∈ composeLines fc tokens maxW leading isCh bs ls baseline, TextInv l := by
  intro bs
  induction bs with
  | nil => intro ls baseline l hl; simp [composeLines] at hl
  | cons b rest ih =>
    intro ls baseline l hl
    rw [composeLines] at hl
    split at hl
    · exact ih ls baseline l hl
    · rcases List.mem_cons.mp hl with rfl | hmem
      · rfl
      · exact ih b (baseline + leading) l hmem

/-- C3: for every FormattedLine of a laid-out paragraph, post-processing
included, rendering its token list in order (Word to its text, Space to one
space char, Punctuation to its char, the DiscretionaryHyphen soft hyphen
point to a hyphen-minus) yields exactly the stored text field. -/
theorem line_text_token_roundtrip (fc : FontContext) (text : List Char)
    (x y maxW : ℚ) (isCh : Bool) :
    ∀ line ∈ (layoutParagraphCore fc text x y maxW isCh).lines,
      tokensToString line.tokens = line.text := by
  intro line hline
  have hcomp : ∀ l ∈ composeParagraph fc
      (tokenizeText (processBidiText (normalizePunctuation text)) isCh) maxW
      (layoutParagraphCore fc text x y maxW isCh).leading isCh, TextInv l := by
    rw [composeParagraph]
    exact composeLines_textInv fc _ maxW _ isCh _ 0 0
  have hmem : line ∈ postProcessLines fc (composeParagraph fc
      (tokenizeText (processBidiText (normalizePunctuation text)) isCh) maxW
      (layoutParagraphCore fc text x y maxW isCh).leading isCh) maxW isCh := hline
  exact (postProcessLines_textInv fc _ maxW isCh hcomp line hmem).symm

/-- Concrete text for the C3 witness. -/
def textC3 : List Char := ['h', 'i', ' ', 'h', 'o']

/-- Witness for C3: the theorem applied at a concrete laid-out line. -/
theorem line_text_token_roundtrip_witness :
    tokensToString ((layoutParagraphCore fcJustify textC3 0 0 20 false).lines.getD 0
        dummyLine).tokens =
      ((layoutParagraphCore fcJustify textC3 0 0 20 false).lines.getD 0 dummyLine).text :=
  line_text_token_roundtrip fcJustify textC3 0 0 20 false _ (by decide)

theorem map_set_same (f : FormattedLine → List SpaceAdjustment) :
    ∀ (l : List FormattedLine) (i : Nat) (x : FormattedLine),
      (∀ a, l.get? i = some a → f x = f a) → (l.set i x).map f = l.map f := by
  intro l
  induction l with
  | nil => intro i x _; rfl
  | cons b t ih =>
    intro i x h
    cases i with
    | zero =>
      have := h b rfl
      simp [List.set, this]
    | succ n =>
      simp only [List.set, List.map_cons]
      rw [ih n x (fun a ha => h a (by simpa using ha))]

theorem map_adj_two_set (lines : List FormattedLine) (i j : Nat) (hne : i ≠ j)
    (A B : FormattedLine)
    (hA : ∀ a, lines.get? i = some a → A.spaceAdjustments = a.spaceAdjustments)
    (hB : ∀ a, lines.get? j = some a → B.spaceAdjustments = a.spaceAdjustments) :
    ((lines.set i A).set j B).map (fun l => l.spaceAdjustments) =
      lines.map (fun l => l.spaceAdjustments) := by
  rw [map_set_same _ _ j B (fun a ha => by
      rw [List.get?_set_ne A lines hne] at ha
      exact hB a ha),
    map_set_same _ _ i A hA]

theorem tryPullWordFromPreviousLine_adjMap (fc : FontContext)
    (lines : List FormattedLine) (lastIndex : Nat) (maxW : ℚ) (isCh : Bool) :
    (tryPullWordFromPreviousLine fc lines lastIndex maxW isCh).map
        (fun l => l.spaceAdjustments) = lines.map (fun l => l.spaceAdjustments) := by
  rw [tryPullWordFromPreviousLine]
  split
  · rfl
  · next hne0 =>
    split
    · next lastL prevL heq1 heq2 =>
      split
      · rfl
      · dsimp only
        split
        · rfl
        · split
          · refine map_adj_two_set lines (lastIndex - 1) lastIndex (by omega) _ _ ?_ ?_
            · intro a ha
              rw [heq2] at ha
              injection ha with ha
              show prevL.spaceAdjustments = a.spaceAdjustments
              rw [ha]
            · intro a ha
              rw [heq1] at ha
              injection ha with ha
              show lastL.spaceAdjustments = a.spaceAdjustments
              rw [ha]
          · rfl
    · rfl

theorem tryPushWordToNextLine_adjMap (fc : FontContext)
    (lines : List FormattedLine) (index : Nat) (maxW : ℚ) (isCh : Bool) :
    (tryPushWordToNextLine fc lines index maxW isCh).map
        (fun l => l.spaceAdjustments) = lines.map (fun l => l.spaceAdjustments) := by
  rw [tryPushWordToNextLine]
  split
  · rfl
  · split
    · next curL nextL heq1 heq2 =>
      split
      · rfl
      · dsimp only
        split
        · rfl
        · split
          · refine map_adj_two_set lines (index + 1) index (by omega) _ _ ?_ ?_
            · intro a ha
              rw [heq2] at ha
              injection ha with ha
              show nextL.spaceAdjustments = a.spaceAdjustments
              rw [ha]
            · intro a ha
              rw [heq1] at ha
              injection ha with ha
              show curL.spaceAdjustments = a.spaceAdjustments
              rw [ha]
          · rfl
    · rfl

theorem tryPullWordFromNextLine_adjMap (fc : FontContext)
    (lines : List FormattedLine) (index : Nat) (maxW : ℚ) (isCh : Bool) :
    (tryPullWordFromNextLine fc lines index maxW isCh).map
        (fun l => l.spaceAdjustments) = lines.map (fun l => l.spaceAdjustments) := by
  rw [tryPullWordFromNextLine]
  split
  · rfl
  · split
    · next curL nextL heq1 heq2 =>
      split
      · rfl
      · dsimp only
        split
        · rfl
        · split
          · refine map_adj_two_set lines index (index + 1) (by omega) _ _ ?_ ?_
            · intro a ha
              rw [heq1] at ha
              injection ha with ha
              show curL.spaceAdjustments = a.spaceAdjustments
              rw [ha]
            · intro a ha
              rw [heq2] at ha
              injection ha with ha
              show nextL.spaceAdjustments = a.spaceAdjustments
              rw [ha]
          · rfl
    · rfl

theorem densityStep_adjMap (fc : FontContext) (maxW : ℚ) (isCh : Bool)
    (lines : List FormattedLine) (i : Nat) :
    (densityStep fc maxW isCh lines i).map (fun l => l.spaceAdjustments) =
      lines.map (fun l => l.spaceAdjustments) := by
  rw [densityStep]
  split
  · split
    · exact tryPushWordToNextLine_adjMap fc lines i maxW isCh
    · split
      · exact tryPullWordFromNextLine_adjMap fc lines i maxW isCh
      · rfl
  · rfl

theorem stackedHyphenStep_adjMap (fc : FontContext) (maxW : ℚ) (isCh : Bool)
    (lines : List FormattedLine) (i : Nat) :
    (stackedHyphenStep fc maxW isCh lines i).map (fun l => l.spaceAdjustments) =
      lines.map (fun l => l.spaceAdjustments) := by
  rw [stackedHyphenStep]
  split
  · exact tryPullWordFromNextLine_adjMap fc lines (i - 1) maxW isCh
  · rfl

theorem adjustRagStep_adjMap (lines : List FormattedLine) (i : Nat) :
    (adjustRagStep lines i).map (fun l => l.spaceAdjustments) =
      lines.map (fun l => l.spaceAdjustments) := by
  rw [adjustRagStep]
  split
  · refine map_set_same _ lines i _ ?_
    intro a ha
    have : lines.getD i dummyLine = a := by
      rw [List.getD_eq_getElem?_getD, ← List.get?_eq_getElem?, ha]
      rfl
    rw [← this]
  · rfl

theorem foldl_adjMap (step : List FormattedLine → Nat → List FormattedLine)
    (hstep : ∀ s i, (step s i).map (fun l => l.spaceAdjustments) =
      s.map (fun l => l.spaceAdjustments)) :
    ∀ (idxs : List Nat) (init : List FormattedLine),
      (idxs.foldl step init).map (fun l => l.spaceAdjustments) =
        init.map (fun l => l.spaceAdjustments) := by
  intro idxs
  induction idxs with
  | nil => intro init; rfl
  | cons i rest ih => intro init; rw [List.foldl_cons, ih, hstep]

theorem adjustRag_adjMap (lines : List FormattedLine) :
    (adjustRag lines).map (fun l => l.spaceAdjustments) =
      lines.map (fun l => l.spaceAdjustments) := by
  rw [adjustRag]
  split
  · rfl
  · exact foldl_adjMap adjustRagStep (fun s i => adjustRagStep_adjMap s i) _ lines

theorem postProcessLines_adjMap (fc : FontContext) (lines : List FormattedLine)
    (maxW : ℚ) (isCh : Bool) :
    (postProcessLines fc lines maxW isCh).map (fun l => l.spaceAdjustments) =
      lines.map (fun l => l.spaceAdjustments) := by
  rw [postProcessLines]
  split
  · rfl
  · dsimp only
    have h1 : (postWidowOrphanDensity fc maxW isCh lines).map
        (fun l => l.spaceAdjustments) = lines.map (fun l => l.spaceAdjustments) := by
      rw [postWidowOrphanDensity]
      split
      · rw [foldl_adjMap (densityStep fc maxW isCh)
          (fun s i => densityStep_adjMap fc maxW isCh s i)]
        rw [postOrphanFix]
        split
        · rw [tryPushWordToNextLine_adjMap, postWidowFix]
          split
          · exact tryPullWordFromPreviousLine_adjMap fc lines _ maxW isCh
          · rfl
        · rw [postWidowFix]
          split
          · exact tryPullWordFromPreviousLine_adjMap fc lines _ maxW isCh
          · rfl
      · rfl
    have h2 : ((List.range' 1 ((postWidowOrphanDensity fc maxW isCh lines).length - 1)).foldl
        (stackedHyphenStep fc maxW isCh) (postWidowOrphanDensity fc maxW isCh lines)).map
          (fun l => l.spaceAdjustments) = lines.map (fun l => l.spaceAdjustments) := by
      rw [foldl_adjMap (stackedHyphenStep fc maxW isCh)
        (fun s i => stackedHyphenStep_adjMap fc maxW isCh s i), h1]
    split
    · rw [adjustRag_adjMap, h2]
    · exact h2

theorem justifyAdjustGo_ratio (spaceW clamped : ℚ) :
    ∀ (ts : List TextToken) (pos : Nat),
      ∀ a ∈ (justifyAdjustGo spaceW clamped ts pos).2,
        a.adjustmentRatio = clamped / spaceW := by
  intro ts
  induction ts with
  | nil => intro pos a ha; simp [justifyAdjustGo] at ha
  | cons t rest ih =>
    intro pos a ha
    cases t with
    | Space =>
      dsimp only [justifyAdjustGo] at ha
      rcases List.mem_cons.mp ha with rfl | h
      · rfl
      · exact ih _ a h
    | Word w =>
      dsimp only [justifyAdjustGo] at ha
      exact ih _ a ha
    | Punctuation c =>
      dsimp only [justifyAdjustGo] at ha
      exact ih _ a ha
    | DiscretionaryHyphen =>
      dsimp only [justifyAdjustGo] at ha
      exact ih _ a ha

theorem rustClamp_mem (x lo hi : ℚ) (h : lo ≤ hi) :
    lo ≤ rustClamp x lo hi ∧ rustClamp x lo hi ≤ hi := by
  rw [rustClamp]
  split_ifs with h1 h2
  · exact ⟨le_refl _, h⟩
  · exact ⟨h, le_refl _⟩
  · exact ⟨le_of_not_lt h1, le_of_not_lt h2⟩

theorem justifyLine_ratio_bounds (fc : FontContext) (tokens : List TextToken)
    (maxW : ℚ) (isCh : Bool) (hsp : 0 < calculateTextWidth fc [' '] isCh) :
    ∀ a ∈ (justifyLine fc tokens maxW isCh).2,
      -(1/2) ≤ a.adjustmentRatio ∧ a.adjustmentRatio ≤ 1/2 := by
  rw [justifyLine]
  split
  · intro a ha; simp at ha
  · dsimp only
    split
    · intro a ha; simp at ha
    · intro a ha
      have hr := justifyAdjustGo_ratio _ _ tokens 0 a ha
      rw [hr]
      have hcl := rustClamp_mem
        ((maxW - calculateLineWidth fc tokens isCh) /
          (((tokens.filter isSpaceTok).length : ℚ)))
        (-(calculateTextWidth fc [' '] isCh * (1/2)))
        (calculateTextWidth fc [' '] isCh * (1/2)) (by nlinarith)
      constructor
      · rw [le_div_iff hsp]
        nlinarith [hcl.1]
      · rw [div_le_iff hsp]
        nlinarith [hcl.2]

theorem justifyLine_snd_nil_of_slack (fc : FontContext) (tokens : List TextToken)
    (maxW : ℚ) (isCh : Bool)
    (h : maxW - calculateLineWidth fc tokens isCh ≤ 0) :
    (justifyLine fc tokens maxW isCh).2 = [] := by
  rw [justifyLine, if_pos (Or.inl h)]

theorem justifyLine_snd_nil_of_nospace (fc : FontContext) (tokens : List TextToken)
    (maxW : ℚ) (isCh : Bool)
    (h : (tokens.filter isSpaceTok).length = 0) :
    (justifyLine fc tokens maxW isCh).2 = [] := by
  rw [justifyLine]
  split
  · rfl
  · dsimp only
    rw [if_pos h]

theorem composeLines_adj_spec (fc : FontContext) (tokens : List TextToken)
    (maxW leading : ℚ) (isCh : Bool)
    (hsp : 0 < calculateTextWidth fc [' '] isCh) :
    ∀ (bs : List Nat) (ls : Nat) (baseline : ℚ),
      (∀ line ∈ composeLines fc tokens maxW leading isCh bs ls baseline,
        (∀ a ∈ line.spaceAdjustments,
          -(1/2) ≤ a.adjustmentRatio ∧ a.adjustmentRatio ≤ 1/2) ∧
        ((isCh = true ∨ fc.justification ≠ Justification.Justify) →
          line.spaceAdjustments = []) ∧
        (((line.tokens.filter isSpaceTok).length = 0 ∨ maxW - line.width ≤ 0) →
          line.spaceAdjustments = [])) ∧
      (ls = 0 →
        ∀ line ∈ (composeLines fc tokens maxW leading isCh bs ls baseline).take 1,
          line.spaceAdjustments = []) := by
  intro bs
  induction bs with
  | nil =>
    intro ls baseline
    refine ⟨?_, ?_⟩
    · intro line hline; simp [composeLines] at hline
    · intro _ line hline; simp [composeLines] at hline
  | cons b rest ih =>
    intro ls baseline
    constructor
    · intro line hline
      rw [composeLines] at hline
      split at hline
      · exact ((ih ls baseline).1) line hline
      · rcases List.mem_cons.mp hline with rfl | hmem
        · refine ⟨?_, ?_, ?_⟩
          · show ∀ a ∈ (if ¬(isCh = true) ∧ fc.justification = Justification.Justify ∧
                ls ≠ 0 then justifyLine fc (sliceTokens tokens ls b) maxW isCh
              else (sliceTokens tokens ls b, [])).2, _
            split
            · exact justifyLine_ratio_bounds fc _ maxW isCh hsp
            · intro a ha; simp at ha
          · intro hcond
            show (if ¬(isCh = true) ∧ fc.justification = Justification.Justify ∧
                ls ≠ 0 then justifyLine fc (sliceTokens tokens ls b) maxW isCh
              else (sliceTokens tokens ls b, [])).2 = []
            rw [if_neg (by tauto)]
          · intro hcond
            show (if ¬(isCh = true) ∧ fc.justification = Justification.Justify ∧
                ls ≠ 0 then justifyLine fc (sliceTokens tokens ls b) maxW isCh
              else (sliceTokens tokens ls b, [])).2 = []
            have htoks : (if ¬(isCh = true) ∧ fc.justification = Justification.Justify ∧
                ls ≠ 0 then justifyLine fc (sliceTokens tokens ls b) maxW isCh
              else (sliceTokens tokens ls b, [])).1 = sliceTokens tokens ls b := by
              split
              · exact justifyLine_fst fc _ maxW isCh
              · rfl
            split
            · rcases hcond with h | h
              · exact justifyLine_snd_nil_of_nospace fc _ maxW isCh (by
                  have : (if ¬(isCh = true) ∧ fc.justification = Justification.Justify ∧
                      ls ≠ 0 then justifyLine fc (sliceTokens tokens ls b) maxW isCh
                    else (sliceTokens tokens ls b, [])).1 = sliceTokens tokens ls b := htoks
                  rw [← this]
                  exact h)
              · exact justifyLine_snd_nil_of_slack fc _ maxW isCh h
            · rfl
        · exact ((ih b (baseline + leading)).1) line hmem
    · intro hls line hline
      rw [composeLines] at hline
      split at hline
      · exact (ih ls baseline).2 hls line hline
      · simp only [List.take_succ_cons, List.take_zero, List.mem_singleton] at hline
        subst hline
        show (if ¬(isCh = true) ∧ fc.justification = Justification.Justify ∧
            ls ≠ 0 then justifyLine fc (sliceTokens tokens ls b) maxW isCh
          else (sliceTokens tokens ls b, [])).2 = []
        rw [if_neg (fun hc => hc.2.2 hls)]

/-- C6: every space adjustment layout_paragraph ever records has its ratio
clamped to the closed interval from minus one half to one half, and lines
outside the justification conditions (Chinese script, non-Justify mode, the
first line of the paragraph, no adjustable space, non-positive slack
against the stored pre-justification width) carry no adjustments; the
post-processing pass never changes any line's adjustment list, so the
property carries to the final lines of layout_paragraph. -/
theorem justify_ratio_clamped (fc : FontContext) (tokens : List TextToken)
    (maxW leading : ℚ) (isCh : Bool)
    (hsp : 0 < calculateTextWidth fc [' '] isCh) :
    (∀ line ∈ composeParagraph fc tokens maxW leading isCh,
      (∀ a ∈ line.spaceAdjustments,
        -(1/2) ≤ a.adjustmentRatio ∧ a.adjustmentRatio ≤ 1/2) ∧
      ((isCh = true ∨ fc.justification ≠ Justification.Justify) →
        line.spaceAdjustments = []) ∧
      (((line.tokens.filter isSpaceTok).length = 0 ∨ maxW - line.width ≤ 0) →
        line.spaceAdjustments = [])) ∧
    (∀ line ∈ (composeParagraph fc tokens maxW leading isCh).take 1,
      line.spaceAdjustments = []) ∧
    (postProcessLines fc (composeParagraph fc tokens maxW leading isCh) maxW isCh).map
        (fun l => l.spaceAdjustments) =
      (composeParagraph fc tokens maxW leading isCh).map
        (fun l => l.spaceAdjustments) := by
  refine ⟨?_, ?_, postProcessLines_adjMap fc _ maxW isCh⟩
  · rw [composeParagraph]
    exact (composeLines_adj_spec fc tokens maxW leading isCh hsp _ 0 0).1
  · rw [composeParagraph]
    exact (composeLines_adj_spec fc tokens maxW leading isCh hsp _ 0 0).2 rfl

/-- Concrete token list for the C6 witness. -/
def toksC6 : List TextToken :=
  tokenizeText ['a', 'b', ' ', 'c', 'd', ' ', 'e', 'f'] false

/-- Witness for C6: the theorem applied at a concrete justified layout. -/
theorem justify_ratio_clamped_witness :
    (postProcessLines fcJustify (composeParagraph fcJustify toksC6 20 14 false) 20 false).map
        (fun l => l.spaceAdjustments) =
      (composeParagraph fcJustify toksC6 20 14 false).map
        (fun l => l.spaceAdjustments) :=
  (justify_ratio_clamped fcJustify toksC6 20 14 false (by decide)).2.2

/-- Specification-side form of the leading-token collection: the leading
run of spaces, then the first Word if one immediately follows it. -/
def leadingSpacesThenWord (ts : List TextToken) : List TextToken :=
  ts.takeWhile isSpaceTok ++
    (match ts.dropWhile isSpaceTok with
     | .Word w :: _ => [.Word w]
     | _ => [])

theorem leadingWordTokens_eq_spec :
    ∀ ts : List TextToken, leadingWordTokens ts = leadingSpacesThenWord ts := by
  intro ts
  induction ts with
  | nil => rfl
  | cons t rest ih =>
    cases t with
    | Word w => rfl
    | Space =>
      show TextToken.Space :: leadingWordTokens rest = _
      rw [ih]
      rfl
    | Punctuation c => rfl
    | DiscretionaryHyphen => rfl

/-- A plain Latin line carrying the given tokens, its text and width
derived from them the way the composer derives them. -/
def mkLine (fc : FontContext) (toks : List TextToken) : FormattedLine :=
  { text := tokensToString toks, x := 0, y := 0,
    width := calculateLineWidth fc toks false, height := 14,
    isChinese := false, fontSize := 10, baseline := 0, tokens := toks,
    spaceAdjustments := [], isJustified := false, hyphenated := false }

/-- First concrete line for the C4 counterexample: five words. -/
def lineC4a : FormattedLine :=
  mkLine fcJustify [.Word ['a'], .Space, .Word ['b'], .Space, .Word ['c'],
    .Space, .Word ['d'], .Space, .Word ['e'], .Space]

/-- Second concrete line for the C4 counterexample: a one-word widow. -/
def lineC4b : FormattedLine := mkLine fcJustify [.Word ['f']]

/-- C4 counterexample: the claim as stated is false on the code.  At this
input the last line has exactly one word and the merge fits, so the claim
requires the previous line's first word (Word a) to be pulled onto the
last line, or otherwise both lines to be left unchanged.  The code does
neither: it moves the last line's own word up, leaving the last line empty
and the previous line extended. -/
theorem widow_pull_direction_counterexample :
    ¬ ((TextToken.Word ['a'] ∈
        ((postProcessLines fcJustify [lineC4a, lineC4b] 100 false).getD 1
          dummyLine).tokens) ∨
      postProcessLines fcJustify [lineC4a, lineC4b] 100 false = [lineC4a, lineC4b]) ∧
    ((postProcessLines fcJustify [lineC4a, lineC4b] 100 false).getD 1
      dummyLine).tokens = [] ∧
    ((postProcessLines fcJustify [lineC4a, lineC4b] 100 false).getD 0
      dummyLine).tokens = lineC4a.tokens ++ [TextToken.Word ['f']] := by
  refine ⟨by decide, by decide, by decide⟩

/-- C4 (amended): when the last line of a Latin paragraph is a one-word
widow, the widow step moves the last line's leading spaces and first word
onto the end of the previous line, and it performs the move exactly when
the previous line's width plus the moved width fits within max_width;
otherwise it leaves every line unchanged (later passes may still move
tokens again). -/
theorem widow_pull_amended (fc : FontContext) (lines : List FormattedLine)
    (lastIndex : Nat) (maxW : ℚ) (isCh : Bool)
    (h0 : lastIndex ≠ 0) (lastL prevL : FormattedLine)
    (hlast : lines.get? lastIndex = some lastL)
    (hprev : lines.get? (lastIndex - 1) = some prevL) :
    tryPullWordFromPreviousLine fc lines lastIndex maxW isCh =
      if leadingSpacesThenWord lastL.tokens = [] then lines
      else if prevL.width +
          calculateLineWidth fc (leadingSpacesThenWord lastL.tokens) isCh ≤ maxW then
        (lines.set (lastIndex - 1)
          { prevL with
              tokens := prevL.tokens ++ leadingSpacesThenWord lastL.tokens
              width := prevL.width +
                calculateLineWidth fc (leadingSpacesThenWord lastL.tokens) isCh
              text := tokensToString
                (prevL.tokens ++ leadingSpacesThenWord lastL.tokens) }).set lastIndex
          { lastL with
              tokens := lastL.tokens.drop (leadingSpacesThenWord lastL.tokens).length
              width := calculateLineWidth fc
                (lastL.tokens.drop (leadingSpacesThenWord lastL.tokens).length) isCh
              text := tokensToString
                (lastL.tokens.drop (leadingSpacesThenWord lastL.tokens).length) }
      else lines := by
  rw [tryPullWordFromPreviousLine, if_neg h0, hlast, hprev]
  dsimp only
  have hspec := leadingWordTokens_eq_spec lastL.tokens
  by_cases hemp : lastL.tokens = []
  · rw [if_pos hemp]
    have hnil : leadingSpacesThenWord lastL.tokens = [] := by rw [hemp]; rfl
    rw [if_pos hnil]
  · rw [if_neg hemp, hspec]

/-- Concrete lines for the C4 amended-claim witness. -/
def lineC4c : FormattedLine := mkLine fcJustify [.Word ['x'], .Space]

/-- Witness for C4 (amended): the characterization applied at a concrete
two-line paragraph. -/
theorem widow_pull_amended_witness :
    tryPullWordFromPreviousLine fcJustify [lineC4c, lineC4b] 1 100 false =
      if leadingSpacesThenWord lineC4b.tokens = [] then [lineC4c, lineC4b]
      else if lineC4c.width +
          calculateLineWidth fcJustify (leadingSpacesThenWord lineC4b.tokens) false ≤ 100 then
        ([lineC4c, lineC4b].set 0
          { lineC4c with
              tokens := lineC4c.tokens ++ leadingSpacesThenWord lineC4b.tokens
              width := lineC4c.width +
                calculateLineWidth fcJustify (leadingSpacesThenWord lineC4b.tokens) false
              text := tokensToString
                (lineC4c.tokens ++ leadingSpacesThenWord lineC4b.tokens) }).set 1
          { lineC4b with
              tokens := lineC4b.tokens.drop (leadingSpacesThenWord lineC4b.tokens).length
              width := calculateLineWidth fcJustify
                (lineC4b.tokens.drop (leadingSpacesThenWord lineC4b.tokens).length) false
              text := tokensToString
                (lineC4b.tokens.drop (leadingSpacesThenWord lineC4b.tokens).length) }
      else [lineC4c, lineC4b] :=
  widow_pull_amended fcJustify [lineC4c, lineC4b] 1 100 false (by decide)
    lineC4b lineC4c (by decide) (by decide)

/-- First concrete line for the C10 evaluation: a word, a period, and a
trailing space. -/
def lineC10a : FormattedLine :=
  mkLine fcJustify [.Word ['a'], .Punctuation '.', .Space]

/-- Second concrete line for the C10 evaluation: two words. -/
def lineC10b : FormattedLine :=
  mkLine fcJustify [.Word ['b'], .Space, .Word ['c']]

/-- C10: post-processing does not conserve the token sequence.  At this
input the orphan fix and then the density pass each copy the first line's
trailing Space onto the next line without removing it (the reverse scan
only records a removal index when it reaches a Word, and here it stops at
the period), so the concatenation of all token lists gains two Space
tokens. -/
theorem post_process_token_duplication :
    ((postProcessLines fcJustify [lineC10a, lineC10b] 100 false).map
        (fun l => l.tokens)).flatten ≠
      ([lineC10a, lineC10b].map (fun l => l.tokens)).flatten ∧
    ((postProcessLines fcJustify [lineC10a, lineC10b] 100 false).map
        (fun l => l.tokens)).flatten =
      [.Word ['a'], .Punctuation '.', .Space,
       .Space, .Space, .Word ['b'], .Space, .Word ['c']] := by
  refine ⟨by decide, by decide⟩

/-- C8 counterexample: the claim as stated is false on the code.  At the
non-positive max_width of minus one, layout_paragraph does not return an
error: it returns Ok, laying the text out through forced breaks. -/
theorem layout_no_geometry_error_counterexample :
    layoutParagraph fcJustify ['h', 'i'] 0 0 (-1) false =
      Except.ok (layoutParagraphCore fcJustify ['h', 'i'] 0 0 (-1) false) ∧
    (layoutParagraphCore fcJustify ['h', 'i'] 0 0 (-1) false).lines.length = 1 ∧
    (layoutParagraphCore fcJustify ['h', 'i'] 0 0 (-1) false).width = -1 := by
  refine ⟨rfl, by decide, by decide⟩

/-- C8 (amended): layout_paragraph performs no geometry validation and
never returns an error: for every input, including non-finite or
non-positive geometry, it returns Ok with the deterministically computed
paragraph. -/
theorem layout_always_ok (fc : FontContext) (text : List Char) (x y maxW : ℚ)
    (isCh : Bool) :
    layoutParagraph fc text x y maxW isCh =
      Except.ok (layoutParagraphCore fc text x y maxW isCh) := rfl

/-- Model of FontContext::get_line_height. -/
def getLineHeight (fc : FontContext) (isCh : Bool) : ℚ :=
  (if isCh then fc.fontSizeChinese else fc.fontSizeEnglish) * fc.lineSpacing

/-- Model of FontContext::content_area: page minus margins. -/
def contentArea (fc : FontContext) : ℚ × ℚ × ℚ × ℚ :=
  (fc.margin, fc.margin, fc.pageWidth - 2 * fc.margin, fc.pageHeight - 2 * fc.margin)

/-- Model of BilingualPdfGenerator::safe_content_area: the content area
inset by the 10pt safe inset on every edge, width and height floored at
120. -/
def safeContentArea (fc : FontContext) : ℚ × ℚ × ℚ × ℚ :=
  match contentArea fc with
  | (x, y, w, h) => (x + 10, y + 10, max (w - 2 * 10) 120, max (h - 2 * 10) 120)

/-- Models !text.trim().is_empty(): some char is not whitespace. -/
def trimNonEmpty (s : List Char) : Bool := s.any (fun c => !(rustIsWhitespace c))

/-- Loop of fn create_alternating_layout: for each section pair lay out the
Chinese paragraph then the English paragraph at the running y (skipping
blank texts), adding the inter-paragraph spacing after each and double
spacing between sections.  The running y is never reset at a page break;
page grouping happens later in create_pages_from_paragraphs. -/
def altGo (fc : FontContext) (cx cw spacing : ℚ) (totalLen : Nat) :
    List (List Char × List Char) → Nat → ℚ → List FormattedParagraph
  | [], _, _ => []
  | (zhText, enText) :: rest, idx, y =>
    let s1 :=
      if trimNonEmpty zhText then
        let p := layoutParagraphCore fc zhText cx y cw true
        ([p], y + p.height + spacing)
      else ([], y)
    let s2 :=
      if trimNonEmpty enText then
        let p := layoutParagraphCore fc enText cx s1.2 cw false
        ([p], s1.2 + p.height + spacing)
      else ([], s1.2)
    let y3 := if idx < totalLen - 1 then s2.2 + spacing * 2 else s2.2
    s1.1 ++ s2.1 ++ altGo fc cx cw spacing totalLen rest (idx + 1) y3

/-- Model of fn create_alternating_layout (the Result wrapper in the source
never constructs an error). -/
def createAlternatingLayout (fc : FontContext)
    (zhSections enSections : List (List Char)) : List FormattedParagraph :=
  match safeContentArea fc with
  | (cx, cy, cw, _) =>
    altGo fc cx cw (getLineHeight fc true * (1/2)) zhSections.length
      (zhSections.zip enSections) 0 cy

/-- Page grouping loop of fn create_pages_from_paragraphs: close the page
when the accumulated height plus the next paragraph exceeds the content
height and the page is nonempty. -/
def pagesGo (contentHeight : ℚ) :
    List FormattedParagraph → List FormattedParagraph → ℚ →
      List (List FormattedParagraph) → List (List FormattedParagraph)
  | [], cur, _, pages => if cur = [] then pages else pages ++ [cur]
  | p :: rest, cur, curH, pages =>
    if curH + p.height > contentHeight ∧ ¬(cur = []) then
      pagesGo contentHeight rest [p] p.height (pages ++ [cur])
    else
      pagesGo contentHeight rest (cur ++ [p]) (curH + p.height) pages

/-- Model of fn create_pages_from_paragraphs: pages as groups of
paragraphs (the PDF page objects and the hOCR layer are emitted from
exactly these groups). -/
def createPagesFromParagraphs (fc : FontContext)
    (paragraphs : List FormattedParagraph) : List (List FormattedParagraph) :=
  match safeContentArea fc with
  | (_, _, _, ch) => pagesGo ch paragraphs [] 0 []

/-- Model of fn layout_side_by_side_row: optional Chinese and English
paragraphs at the two column origins, and the row height (the larger
paragraph height, floored at one Chinese line height). -/
def layoutSideBySideRow (fc : FontContext) (zhText enText : List Char)
    (leftX rightX rowY colW : ℚ) :
    Option FormattedParagraph × Option FormattedParagraph × ℚ :=
  let zhPara := if trimNonEmpty zhText then
      some (layoutParagraphCore fc zhText leftX rowY colW true) else none
  let enPara := if trimNonEmpty enText then
      some (layoutParagraphCore fc enText rightX rowY colW false) else none
  (zhPara, enPara,
    max (max ((zhPara.map (fun p => p.height)).getD 0)
      ((enPara.map (fun p => p.height)).getD 0)) (getLineHeight fc true))

/-- Loop of fn create_pages_side_by_side: when a row does not fit on the
remaining page, close the page, reset y to the content top and recompute
the row there. -/
def sbsGo (fc : FontContext) (leftX rightX colW contentY pageBottom rowSpacing : ℚ) :
    List (List Char × List Char) → ℚ → List FormattedParagraph →
      List (List FormattedParagraph) → List (List FormattedParagraph)
  | [], _, cur, pages => if cur = [] then pages else pages ++ [cur]
  | (zhText, enText) :: rest, y, cur, pages =>
    let r := layoutSideBySideRow fc zhText enText leftX rightX y colW
    if y + r.2.2 > pageBottom ∧ ¬(cur = []) then
      let r2 := layoutSideBySideRow fc zhText enText leftX rightX contentY colW
      sbsGo fc leftX rightX colW contentY pageBottom rowSpacing rest
        (contentY + r2.2.2 + rowSpacing) (r2.1.toList ++ r2.2.1.toList) (pages ++ [cur])
    else
      sbsGo fc leftX rightX colW contentY pageBottom rowSpacing rest
        (y + r.2.2 + rowSpacing) (cur ++ r.1.toList ++ r.2.1.toList) pages

/-- Model of fn create_pages_side_by_side. -/
def createPagesSideBySide (fc : FontContext)
    (zhSections enSections : List (List Char)) : List (List FormattedParagraph) :=
  match safeContentArea fc with
  | (cx, cy, cw, ch) =>
    let pageBottom := cy + ch
    let columnGutter : ℚ := 24
    let columnWidth := max ((cw - columnGutter) / 2) 120
    let rightColumnX := cx + columnWidth + columnGutter
    let rowSpacing := max (getLineHeight fc true * (max fc.paragraphSpacing (1/5))) 4
    sbsGo fc cx rightColumnX columnWidth cy pageBottom rowSpacing
      (zhSections.zip enSections) cy [] []

/-- The configuration error of the two generation entry points. -/
inductive PdfGenError where
  | lengthMismatch : Nat → Nat → PdfGenError
deriving DecidableEq

/-- The observable outcome of a successful generation run: the page groups
the document is built from and the path the file is saved to.  The PDF
object graph and the filesystem write are downstream of these and happen
only on the Ok path of the source. -/
structure PdfOutput where
  pages : List (List FormattedParagraph)
  savedTo : List Char
deriving DecidableEq

/-- Model of fn generate_bilingual_pdf: the length check is the first
statement; on mismatch the function returns the configuration error before
any document initialization, layout or save. -/
def generateBilingualPdf (fc : FontContext)
    (zhSections enSections : List (List Char)) (outputPath : List Char) :
    Except PdfGenError PdfOutput :=
  if zhSections.length ≠ enSections.length then
    Except.error (.lengthMismatch zhSections.length enSections.length)
  else
    Except.ok
      { pages := createPagesFromParagraphs fc
          (createAlternatingLayout fc zhSections enSections),
        savedTo := outputPath }

/-- Model of fn generate_bilingual_pdf_side_by_side: same length check
first, then the side-by-side pipeline. -/
def generateBilingualPdfSideBySide (fc : FontContext)
    (zhSections enSections : List (List Char)) (outputPath : List Char) :
    Except PdfGenError PdfOutput :=
  if zhSections.length ≠ enSections.length then
    Except.error (.lengthMismatch zhSections.length enSections.length)
  else
    Except.ok
      { pages := createPagesSideBySide fc zhSections enSections,
        savedTo := outputPath }

/-- C9: for every pair of section lists of unequal length, both generation
entry points return the configuration error immediately; no layout is run
and no output value (hence no file) is produced. -/
theorem length_mismatch_config_error (fc : FontContext)
    (zhSections enSections : List (List Char)) (outputPath : List Char)
    (h : zhSections.length ≠ enSections.length) :
    generateBilingualPdf fc zhSections enSections outputPath =
      Except.error (.lengthMismatch zhSections.length enSections.length) ∧
    generateBilingualPdfSideBySide fc zhSections enSections outputPath =
      Except.error (.lengthMismatch zhSections.length enSections.length) :=
  ⟨by rw [generateBilingualPdf, if_pos h],
   by rw [generateBilingualPdfSideBySide, if_pos h]⟩

/-- Witness for C9: mismatched lengths two versus three. -/
theorem length_mismatch_config_error_witness :
    generateBilingualPdf fcJustify [['a'], ['b']] [['x'], ['y'], ['z']] ['o'] =
      Except.error (.lengthMismatch 2 3) ∧
    generateBilingualPdfSideBySide fcJustify [['a'], ['b']] [['x'], ['y'], ['z']] ['o'] =
      Except.error (.lengthMismatch 2 3) :=
  length_mismatch_config_error fcJustify [['a'], ['b']] [['x'], ['y'], ['z']] ['o']
    (by decide)

/-- C2: code-bug evaluation.  With a 200 by 200 page, margin 20 and the
constant metrics of fcJustify, one section of five wide Chinese chars and
one short English text produces a three-line Chinese paragraph of height
168 and a one-line English paragraph.  The grouping closes page one after
the Chinese paragraph, and the English paragraph begins page two — but its
origin keeps the accumulated y of 226 instead of being reset to the
content-area top of 30: its first baseline lies below the content-area
bottom (30 + 140) and its emitted PDF y, pageHeight - (y + baseline), is
negative, off the physical page. -/
theorem alternating_second_page_origin_offpage :
    (createPagesFromParagraphs fcJustify
        (createAlternatingLayout fcJustify [['a', 'b', 'c', 'd', 'e']] [['h', 'i']])).map
        (fun page => page.map (fun p => p.y)) = [[30], [226]] ∧
    safeContentArea fcJustify = (30, 30, 140, 140) ∧
    ¬ ((226 : ℚ) ≤ 30 + 140) ∧
    fcJustify.pageHeight - (226 + 0) < 0 := by
  refine ⟨by decide, by decide, by decide, by decide⟩

/-- An element of the TJ show-text array: a string of glyph-code bytes or a
numeric displacement. -/
inductive TjItem where
  | str : List Nat → TjItem
  | num : ℚ → TjItem
deriving DecidableEq

/-- UTF-16 big-endian bytes of a char (char::encode_utf16 then to_be_bytes). -/
def utf16beBytes (c : Char) : List Nat :=
  let v := c.toNat
  if v < 0x10000 then [v / 256, v % 256]
  else
    let u := v - 0x10000
    let hi := 0xD800 + u / 0x400
    let lo := 0xDC00 + u % 0x400
    [hi / 256, hi % 256, lo / 256, lo % 256]

/-- UTF-8 bytes of a char (the literal bytes the English path emits). -/
def utf8Bytes (c : Char) : List Nat :=
  let v := c.toNat
  if v < 0x80 then [v]
  else if v < 0x800 then [0xC0 + v / 0x40, 0x80 + v % 0x40]
  else if v < 0x10000 then
    [0xE0 + v / 0x1000, 0x80 + (v / 0x40) % 0x40, 0x80 + v % 0x40]
  else
    [0xF0 + v / 0x40000, 0x80 + (v / 0x1000) % 0x40,
     0x80 + (v / 0x40) % 0x40, 0x80 + v % 0x40]

/-- The glyph-code string for one char: hexadecimal UTF-16BE for Chinese,
literal single bytes for the English path. -/
def tjGlyph (isCh : Bool) (c : Char) : TjItem :=
  if isCh then .str (utf16beBytes c) else .str (utf8Bytes c)

/-- Char walk of fn build_tj_array: a glyph string per char and, between
adjacent chars, a displacement of kerning (scaled to thousandths of an em)
plus tracking plus, when the char is a space whose emitter-side position is
a recorded adjustment position, the extra space displacement.  The
emitter-side position counter char_position advances only on non-space
chars.  The HashMap of the source is modelled by find? on the adjustment
list; justify_line records strictly increasing positions, so there are no
duplicate keys. -/
def buildTjGo (fc : FontContext) (line : FormattedLine) :
    List Char → Nat → List TjItem
  | [], _ => []
  | [c], _ => [tjGlyph line.isChinese c]
  | c :: c2 :: rest, charPosition =>
    let kern := if line.isChinese then fc.chineseKern else fc.englishKern
    let upem := if line.isChinese then fc.chineseUpem else fc.englishUpem
    let tracking := if line.isChinese then fc.trackingChinese else fc.trackingEnglish
    let kernAdj := match kern c c2 with
      | some k => k * 1000 / upem
      | none => 0
    let spaceAdj :=
      if c = ' ' then
        match line.spaceAdjustments.find? (fun a => a.position = charPosition) with
        | some a =>
            calculateTextWidth fc [' '] line.isChinese * a.adjustmentRatio *
              1000 / line.fontSize
        | none => 0
      else 0
    tjGlyph line.isChinese c :: .num (kernAdj + tracking + spaceAdj) ::
      buildTjGo fc line (c2 :: rest)
        (if ¬(c = ' ') then charPosition + 1 else charPosition)

/-- Model of fn build_tj_array. -/
def buildTjArray (fc : FontContext) (line : FormattedLine) : List TjItem :=
  buildTjGo fc line line.text 0

/-- Concrete token list for the C7 evaluation: three two-char words with
two spaces. -/
def toksC7 : List TextToken :=
  [.Word ['a', 'b'], .Space, .Word ['c', 'd'], .Space, .Word ['e', 'f']]

/-- The justified line for the C7 evaluation, carrying exactly the space
adjustments justify_line records for it at max_width 30. -/
def lineC7 : FormattedLine :=
  { text := ['a', 'b', ' ', 'c', 'd', ' ', 'e', 'f'],
    x := 0, y := 0, width := 24, height := 14, isChinese := false,
    fontSize := 10, baseline := 0,
    tokens := (justifyLine fcJustify toksC7 30 false).1,
    spaceAdjustments := (justifyLine fcJustify toksC7 30 false).2,
    isJustified := true, hyphenated := false }

/-- C7: code-bug evaluation.  justify_line records the two stretched
spaces of this line at char positions 2 and 5, counting every char of the
line text; build_tj_array looks a space up under the count of preceding
non-space chars, which is 2 for the first space but 4 for the second.  The
first space therefore receives its extra displacement of 150 thousandths
of an em, while the second space's recorded adjustment is never applied
(its displacement stays 0): the emitter position convention does not match
the composer convention, falsifying the claim. -/
theorem tj_space_adjustment_position_mismatch :
    (justifyLine fcJustify toksC7 30 false).2.map (fun a => a.position) = [2, 5] ∧
    (justifyLine fcJustify toksC7 30 false).2.map (fun a => a.adjustmentRatio) =
      [1/2, 1/2] ∧
    buildTjArray fcJustify lineC7 =
      [.str [97], .num 0, .str [98], .num 0, .str [32], .num 150,
       .str [99], .num 0, .str [100], .num 0, .str [32], .num 0,
       .str [101], .num 0, .str [102]] := by
  refine ⟨by decide, by decide, by decide⟩
